import Mathlib

set_option maxHeartbeats 1000000

/- Shallow embedding of the text-recovery pipeline of the
   social-media-content-analyzer backend.  Texts are lists of characters;
   each JavaScript string operation of the source is translated into an
   executable Lean function on such lists.  Machine floats of the source
   (quality scores, density thresholds) are modelled as exact rationals. -/

/- Character classes mirroring the JavaScript regular-expression classes
   used in the OCR utilities and the PDF extractor. -/

def isJsSpace (c : Char) : Bool :=
  c == ' ' || c == '\t' || c == '\n' || c == '\r' || c == '\x0b' || c == '\x0c' ||
  c == '\u00A0' || c == '\u1680' || (decide ('\u2000' ≤ c) && decide (c ≤ '\u200A')) ||
  c == '\u2028' || c == '\u2029' || c == '\u202F' || c == '\u205F' || c == '\u3000' || c == '\uFEFF'

def isHz (c : Char) : Bool :=
  c == ' ' || c == '\t'

def isLineTerm (c : Char) : Bool :=
  c == '\n' || c == '\r' || c == '\u2028' || c == '\u2029'

def isDigitCh (c : Char) : Bool :=
  decide ('0' ≤ c) && decide (c ≤ '9')

def isAsciiLetter (c : Char) : Bool :=
  (decide ('a' ≤ c) && decide (c ≤ 'z')) || (decide ('A' ≤ c) && decide (c ≤ 'Z'))

def isAlnumCh (c : Char) : Bool :=
  isAsciiLetter c || isDigitCh c

def isWordCh (c : Char) : Bool :=
  isAlnumCh c || c == '_'

def isDotCh (c : Char) : Bool :=
  !(isLineTerm c)

def notWordSpace (c : Char) : Bool :=
  !(isWordCh c) && !(isJsSpace c)

/- The number of characters of a line matched by the class [a-zA-Z0-9]
   (the per-line word-character count computed in the source). -/
def countAlnum (l : List Char) : Nat :=
  l.countP isAlnumCh

/- Splitting a text at every character satisfying p, as JavaScript
   String.prototype.split does (the empty text yields one empty piece). -/
def splitP (p : Char → Bool) : List Char → List (List Char)
  | [] => [[]]
  | c :: cs => if p c then [] :: splitP p cs else (splitP p cs).modifyHead (c :: ·)

/- text.split of a newline, as in the source. -/
def splitNL (s : List Char) : List (List Char) :=
  splitP (fun c => c == '\n') s

/- Array.prototype.join of a newline. -/
def joinNL : List (List Char) → List Char
  | [] => []
  | [l] => l
  | l :: ls => l ++ '\n' :: joinNL ls

/- String.prototype.trim: drop JavaScript whitespace from both ends. -/
def trimL (s : List Char) : List Char :=
  s.dropWhile isJsSpace

def trimR (s : List Char) : List Char :=
  s.rdropWhile isJsSpace

def trimStr (s : List Char) : List Char :=
  trimR (trimL s)

/- replace of a run of three or more newlines by exactly two newlines
   (used both by the OCR cleaner and by the PDF normalizer).  The
   accumulator counts the newline run currently being read. -/
def collapseNLAux : Nat → List Char → List Char
  | pending, [] => List.replicate (min pending 2) '\n'
  | pending, c :: cs =>
    if c = '\n' then collapseNLAux (pending + 1) cs
    else List.replicate (min pending 2) '\n' ++ c :: collapseNLAux 0 cs

def collapseNL (s : List Char) : List Char :=
  collapseNLAux 0 s

/- replace of a run of one or more horizontal blanks by a single space.
   The flag records whether the scanner is inside a run whose blank has
   already been emitted. -/
def collapseHzAux : Bool → List Char → List Char
  | _, [] => []
  | inRun, c :: cs =>
    if isHz c then
      if inRun then collapseHzAux true cs
      else ' ' :: collapseHzAux true cs
    else c :: collapseHzAux false cs

def collapseHz (s : List Char) : List Char :=
  collapseHzAux false s

/- Whether a text contains three consecutive newlines. -/
def hasTriple : List Char → Bool
  | a :: b :: c :: t => (a = '\n' && b = '\n' && c = '\n') || hasTriple (b :: c :: t)
  | _ => false

/- The lines of a text: the pieces of a newline split, none for the
   empty text. -/
def linesOf (s : List Char) : List (List Char) :=
  if s.isEmpty then [] else splitNL s

/- A small regular-expression engine covering exactly the constructs the
   source's patterns use: character classes, concatenation, alternation
   (preference to the left branch), greedy option and greedy star of a
   class.  Matching is continuation-passing and explores alternatives in
   the same order as the JavaScript backtracking engine (greedy first,
   left alternative first), returning the first success. -/

inductive RE where
  | eps : RE
  | cls : (Char → Bool) → RE
  | seq : RE → RE → RE
  | alt : RE → RE → RE
  | opt : RE → RE
  | star : (Char → Bool) → RE

/- Greedy star of a character class: consume as many class characters as
   possible, backtracking one at a time. -/
def starK (p : Char → Bool) (k : List Char → Option α) : List Char → Option α
  | [] => k []
  | c :: rest =>
    if p c then
      match starK p k rest with
      | some r => some r
      | none => k (c :: rest)
    else k (c :: rest)

/- Match a prefix of the text against the pattern; the continuation
   receives the remaining suffix.  The first success in backtracking
   order is returned. -/
def matchK : RE → List Char → (List Char → Option α) → Option α
  | .eps, s, k => k s
  | .cls _, [], _ => none
  | .cls p, c :: rest, k => if p c then k rest else none
  | .seq a b, s, k => matchK a s (fun s' => matchK b s' k)
  | .alt a b, s, k =>
    match matchK a s k with
    | some r => some r
    | none => matchK b s k
  | .opt a, s, k =>
    match matchK a s k with
    | some r => some r
    | none => k s
  | .star p, s, k => starK p k s

/- pattern.test for a pattern anchored on both sides (no m flag):
   some backtracking branch consumes the whole text. -/
def reTestFull (re : RE) (s : List Char) : Bool :=
  (matchK re s (fun s' => if s'.isEmpty then some () else none)).isSome

/- pattern.test for a pattern anchored only at the start. -/
def reTestStartB (re : RE) (s : List Char) : Bool :=
  (matchK re s (fun _ => some ())).isSome

/- text.replace(pattern, two quotes) for an unanchored global pattern:
   scan left to right, drop the first match found at each position and
   continue after it, exactly as a global JavaScript replace does.  The
   fuel is one more than the length of the text, enough for every scan
   step since every pattern of the source matches at least one
   character. -/
def removeAllAux (re : RE) : Nat → List Char → List Char
  | 0, s => s
  | _ + 1, [] => []
  | fuel + 1, c :: rest =>
    match matchK re (c :: rest) some with
    | some s' => removeAllAux re fuel s'
    | none => c :: removeAllAux re fuel rest

def removeAll (re : RE) (s : List Char) : List Char :=
  removeAllAux re (s.length + 1) s

/- Whether a position (given as the remaining suffix) is an end-of-line
   position for the multiline dollar anchor: end of text or right before
   a line terminator. -/
def eolOk : List Char → Bool
  | [] => true
  | c :: _ => isLineTerm c

/- Whether the character before the new scan position (the last
   character of the span just matched) is a line terminator, deciding
   whether a multiline caret can match there. -/
def bolAfter (s s' : List Char) : Bool :=
  match (s.take (s.length - s'.length)).getLast? with
  | some d => isLineTerm d
  | none => false

/- text.replace of a multiline pattern anchored on both sides
   (flags gm), replacing each match by the empty string: at every
   beginning-of-line position try the body, accepting the first
   backtracking branch that stops at an end-of-line position. -/
def remLinesAux (re : RE) : Nat → Bool → List Char → List Char
  | 0, _, s => s
  | _ + 1, _, [] => []
  | fuel + 1, atBOL, c :: rest =>
    if atBOL then
      match matchK re (c :: rest) (fun s' => if eolOk s' then some s' else none) with
      | some s' => remLinesAux re fuel (bolAfter (c :: rest) s') s'
      | none => c :: remLinesAux re fuel (isLineTerm c) rest
    else c :: remLinesAux re fuel (isLineTerm c) rest

def remLines (re : RE) (s : List Char) : List Char :=
  remLinesAux re (s.length + 1) true s

/- A case-sensitive literal word. -/
def strRE (s : String) : RE :=
  (s.data.map (fun c => RE.cls (fun x => x == c))).foldr RE.seq RE.eps

/- A case-insensitive literal word (the i flag); the argument is given
   in lower case. -/
def strCI (s : String) : RE :=
  (s.data.map (fun c => RE.cls (fun x => x.toLower == c))).foldr RE.seq RE.eps

/- One or more characters of a class (greedy plus). -/
def plusC (p : Char → Bool) : RE :=
  RE.seq (RE.cls p) (RE.star p)

/- The patterns of cleanOCRText, in source order.  Case-insensitive
   classes fold both cases; [A-Z] and [a-z] under the i flag both mean
   any ASCII letter. -/

/- Pattern of one to two non-word non-space symbols (whole line, gm). -/
def re1body : RE :=
  RE.seq (RE.cls notWordSpace) (RE.opt (RE.cls notWordSpace))

/- Pattern of three or more non-word non-space symbols (whole line, gm). -/
def re2body : RE :=
  RE.seq (RE.cls notWordSpace)
    (RE.seq (RE.cls notWordSpace) (RE.seq (RE.cls notWordSpace) (RE.star notWordSpace)))

/- Optional trailing s, case-insensitive. -/
def sOptCI : RE :=
  RE.opt (RE.cls (fun x => x.toLower == 's'))

def othersOpt : RE :=
  RE.seq (strCI ("other")) sOptCI

def commentsOpt : RE :=
  RE.seq (strCI ("comment")) sOptCI

/- Body of the whole-line digits-others-or-comments pattern (gmi). -/
def re7body : RE :=
  RE.seq (plusC isDigitCh) (RE.seq (plusC isJsSpace) (RE.alt othersOpt commentsOpt))

/- Unanchored and-digits-others-digits-comments pattern (gi). -/
def re8 : RE :=
  RE.seq (strCI ("and"))
    (RE.seq (plusC isJsSpace)
      (RE.seq (plusC isDigitCh)
        (RE.seq (plusC isJsSpace)
          (RE.seq othersOpt
            (RE.seq (plusC isJsSpace)
              (RE.seq (plusC isDigitCh) (RE.seq (plusC isJsSpace) commentsOpt)))))))

/- Body of the whole-line digits-comments pattern (gmi). -/
def re9body : RE :=
  RE.seq (plusC isDigitCh) (RE.seq (plusC isJsSpace) commentsOpt)

/- A capitalized word under the i flag: any letter then one or more
   letters. -/
def nameCI : RE :=
  RE.seq (RE.cls isAsciiLetter) (plusC isAsciiLetter)

/- Unanchored three-names, dot-star, and-digits-others, dot-star,
   digits-comments pattern (gi). -/
def re10 : RE :=
  RE.seq nameCI
    (RE.seq (plusC isJsSpace)
      (RE.seq nameCI
        (RE.seq (plusC isJsSpace)
          (RE.seq nameCI
            (RE.seq (RE.star isDotCh)
              (RE.seq (strCI ("and"))
                (RE.seq (plusC isJsSpace)
                  (RE.seq (plusC isDigitCh)
                    (RE.seq (plusC isJsSpace)
                      (RE.seq (strCI ("others"))
                        (RE.seq (RE.star isDotCh)
                          (RE.seq (plusC isDigitCh)
                            (RE.seq (plusC isJsSpace) commentsOpt)))))))))))))

/- The four engagement patterns tested line by line at the end of the
   cleaner. -/
def engP1 : RE :=
  RE.seq (plusC isDigitCh)
    (RE.seq (RE.star isJsSpace)
      (RE.alt (strCI ("like")) (RE.alt (strCI ("comment")) (RE.alt (strCI ("share")) (strCI ("repost"))))))

def engP2 : RE :=
  RE.alt (strCI ("like"))
    (RE.alt (strCI ("comment")) (RE.alt (strCI ("share")) (RE.alt (strCI ("repost")) (strCI ("send")))))

def engP3 : RE :=
  RE.star (fun c => !(isWordCh c))

def engP4 : RE :=
  RE.seq nameCI
    (RE.seq (plusC isJsSpace)
      (RE.seq nameCI
        (RE.seq (plusC isJsSpace)
          (RE.seq (strCI ("and"))
            (RE.seq (plusC isJsSpace)
              (RE.seq (plusC isDigitCh) (RE.seq (plusC isJsSpace) (strCI ("others")))))))))

/- The euro, at, registered, copyright and trademark glyphs stripped by
   the cleaner. -/
def isStripGlyph (c : Char) : Bool :=
  c == '€' || c == '@' || c == '®' || c == '©' || c == '™'

/- The square-bracket and curly-brace characters stripped by the
   cleaner. -/
def isBracketCh (c : Char) : Bool :=
  c == '[' || c == ']' || c == '\x7b' || c == '\x7d'

/- Curly double quotes normalized to a straight double quote. -/
def normDouble (c : Char) : Char :=
  if c == '“' || c == '”' then '"' else c

/- Curly single quotes normalized to a straight single quote. -/
def normSingle (c : Char) : Char :=
  if c == '‘' || c == '’' then '\'' else c

/- The line-level density filter: keep a trimmed line when it has at
   least 3 characters and its word-character count is at least 0.3 of
   its length (the float comparison of the source is exact here:
   wordChars.length of at least line.length times three tenths). -/
def densityKeep (l : List Char) : Bool :=
  !(decide (l.length < 3)) && decide (3 * l.length ≤ 10 * countAlnum l)

/- Whether a trimmed line matches one of the four engagement patterns. -/
def engagementDrop (t : List Char) : Bool :=
  reTestStartB engP1 t || reTestFull engP2 t || reTestFull engP3 t || reTestStartB engP4 t

/- The final line filter: drop blank lines and lines matching an
   engagement pattern. -/
def engagementKeep (line : List Char) : Bool :=
  !(trimStr line).isEmpty && !(engagementDrop (trimStr line))

/- The regex replacement passes of cleanOCRText, in source order. -/
def regexStages (t : List Char) : List Char :=
  removeAll re10
    (remLines re9body
      (removeAll re8
        (remLines re7body
          (List.map normSingle
            (List.map normDouble
              (List.filter (fun c => !(isBracketCh c))
                (List.filter (fun c => !(isStripGlyph c))
                  (remLines re2body (remLines re1body t)))))))))

/- split, trim each line, keep dense lines, join. -/
def stageDensity (t : List Char) : List Char :=
  joinNL (((splitNL t).map trimStr).filter densityKeep)

/- Collapse newline runs and horizontal blank runs, then trim. -/
def stageWhitespace (t : List Char) : List Char :=
  trimStr (collapseHz (collapseNL t))

/- split, drop engagement lines, join. -/
def stageEngagement (t : List Char) : List Char :=
  joinNL ((splitNL t).filter engagementKeep)

/- cleanOCRText of the source: the regex passes, the density filter,
   whitespace cleanup, the engagement filter and a final trim. -/
def cleanOCRText (text : List Char) : List Char :=
  trimStr (stageEngagement (stageWhitespace (stageDensity (regexStages text))))

/- scoreOCRQuality of the source, with the float arithmetic modelled as
   exact rationals. -/

/- text.split on runs of whitespace, keeping only the non-empty words. -/
def wordsOf (t : List Char) : List (List Char) :=
  (splitP isJsSpace t).filter (fun w => !w.isEmpty)

def sumLen (ws : List (List Char)) : Nat :=
  (ws.map List.length).sum

/- Average word length of the text (zero words handled by the caller). -/
def avgWordLength (t : List Char) : ℚ :=
  (sumLen (wordsOf t) : ℚ) / ((wordsOf t).length : ℚ)

/- Fraction of words of reasonable length, between 3 and 20 characters. -/
def reasonableRatio (t : List Char) : ℚ :=
  (((wordsOf t).filter (fun w => decide (3 ≤ w.length) && decide (w.length ≤ 20))).length : ℚ) /
    ((wordsOf t).length : ℚ)

/- The non-blank lines considered by the scorer. -/
def scoreLines (t : List Char) : List (List Char) :=
  (splitNL t).filter (fun l => !(trimStr l).isEmpty)

/- A line is meaningful when its word-character count is at least 0.4 of
   its length (exact rational form of the float comparison). -/
def meaningfulLine (l : List Char) : Bool :=
  decide (2 * l.length ≤ 5 * countAlnum l)

/- Fraction of meaningful lines, zero when there is no non-blank line. -/
def meaningfulRatio (t : List Char) : ℚ :=
  if (scoreLines t).length = 0 then 0
  else (((scoreLines t).filter meaningfulLine).length : ℚ) / ((scoreLines t).length : ℚ)

/- The combined quality score: three tenths of a tenth of the average
   word length, four tenths of the reasonable-word fraction, three
   tenths of the meaningful-line fraction. -/
def scoreOCRQuality (text : List Char) : ℚ :=
  if text.length = 0 then 0
  else if (wordsOf text).length = 0 then 0
  else
    avgWordLength text / 10 * (3 / 10) + reasonableRatio text * (4 / 10) +
      meaningfulRatio text * (3 / 10)

/- The recognition configurations tried by extractTextFromImage, in
   declaration order. -/

structure OCRConfig where
  name : String
  psm : String
  oem : String
deriving DecidableEq

def configurations : List OCRConfig :=
  [ { name := "PSM 6 - Single Block", psm := "6", oem := "1" },
    { name := "PSM 3 - Auto", psm := "3", oem := "1" },
    { name := "PSM 11 - Sparse", psm := "11", oem := "1" },
    { name := "PSM 6 - Legacy", psm := "6", oem := "0" } ]

/- One entry of the results array: cleaned text, quality score and
   producing configuration name. -/
structure Candidate where
  text : List Char
  quality : ℚ
  config : String
deriving DecidableEq

def mkCandidate (cfg : OCRConfig) (raw : List Char) : Candidate :=
  { text := cleanOCRText raw
    quality := scoreOCRQuality (cleanOCRText raw)
    config := cfg.name }

/- The per-configuration loop: a recognition failure is caught and the
   configuration contributes nothing; successes are pushed in
   declaration order.  The engine call is an oracle parameter. -/
def runProfiles (recognize : OCRConfig → Option (List Char)) (cfgs : List OCRConfig) :
    List Candidate :=
  cfgs.filterMap (fun cfg => (recognize cfg).map (mkCandidate cfg))

/- results.sort of the comparator on descending quality.  Since 2019 the
   JavaScript sort is required to be stable, and insertion keeping
   earlier elements in front on ties is the stable descending sort. -/
def insertByQ (x : Candidate) : List Candidate → List Candidate
  | [] => [x]
  | y :: ys => if y.quality ≤ x.quality then x :: y :: ys else y :: insertByQ x ys

def sortByQ : List Candidate → List Candidate
  | [] => []
  | x :: xs => insertByQ x (sortByQ xs)

/- The first candidate attaining the maximal quality, which a stable
   descending sort places at the head. -/
def firstMax : List Candidate → Option Candidate
  | [] => none
  | x :: xs =>
    match firstMax xs with
    | none => some x
    | some y => if x.quality < y.quality then some y else some x

/- results[0] and the empty-text check of the source. -/
def selectBestText (results : List Candidate) : Except String (List Char) :=
  match (sortByQ results).head? with
  | none => Except.error ("No text could be extracted from the image")
  | some best =>
    if best.text.length = 0 then Except.error ("No text could be extracted from the image")
    else Except.ok best.text

/- extractTextFromImage over a recognition oracle: run every
   configuration, pick the best result, wrap any failure in the outer
   catch message. -/
def extractTextFromImage (recognize : OCRConfig → Option (List Char)) :
    Except String (List Char) :=
  match selectBestText (runProfiles recognize configurations) with
  | Except.ok t => Except.ok t
  | Except.error e => Except.error ("Failed to extract text from image: " ++ e)

/- preprocessImage over the sharp library modelled as an optional oracle
   (metadata read and pipeline write can each fail). -/

structure ImgMeta where
  width : Option Nat

structure SharpOracle where
  metadata : Except String ImgMeta
  toFile : Except String Unit

/- Math.max(2, Math.ceil(1000 / width)) for a positive width. -/
def scaleFactorFor (w : Nat) : Nat :=
  max 2 ((1000 + w - 1) / w)

/- The upscale target width chosen for small images. -/
def upscaleTarget (m : ImgMeta) : Option Nat :=
  match m.width with
  | some w => if w < 1000 then some (w * scaleFactorFor w) else none
  | none => none

def preprocessImage (sharp : Option SharpOracle) (inputPath outputPath : String) : String :=
  match sharp with
  | none => inputPath
  | some o =>
    match o.metadata with
    | Except.error _ => inputPath
    | Except.ok _ =>
      match o.toFile with
      | Except.ok _ => outputPath
      | Except.error _ => inputPath

/- extractTextFromPDF over a parse oracle giving the outcome of the
   default parse and of the relaxed retry. -/

structure PdfParseOracle where
  firstAttempt : Except String (List Char)
  retryAttempt : Except String (List Char)

/- Substring containment, as String.prototype.includes. -/
def containsSub (pat : List Char) (s : List Char) : Bool :=
  s.tails.any (fun t => pat.isPrefixOf t)

def xrefErr (msg : String) : Bool :=
  containsSub ("XRef").data msg.data || containsSub ("xref").data msg.data

def corruptedMsg (e : String) : String :=
  "PDF appears to be corrupted or uses unsupported features. Error: " ++ e ++
    ". Please try converting the PDF to a standard format or use an image version of the document."

def noTextExtractedMsg : String :=
  "No text could be extracted from the PDF. The PDF may contain only images."

def imageOnlyMsg : String :=
  "PDF appears to contain no extractable text. It may be an image-based PDF. Please try uploading as an image file instead."

def structuralMsg (e : String) : String :=
  "PDF parsing error: The PDF file appears to have structural issues (" ++ e ++
    "). This can happen with corrupted PDFs or PDFs created with certain software. Try: 1) Re-saving the PDF, 2) Converting to an image and uploading as PNG/JPEG, or 3) Using a different PDF file."

def passwordMsg : String :=
  "PDF is password-protected or encrypted. Please remove the password and try again."

def genericPdfMsg (e : String) : String :=
  "Failed to extract text from PDF: " ++ e

/- The outer catch of the source, mapping a thrown message to the
   user-facing failure message. -/
def classifyPdfError (e : String) : String :=
  if xrefErr e then structuralMsg e
  else if containsSub ("password").data e.data || containsSub ("encrypted").data e.data then
    passwordMsg
  else genericPdfMsg e

/- The whitespace normalization of the PDF path: collapse runs of three
   or more newlines to exactly two, then trim. -/
def normalizePDF (t : List Char) : List Char :=
  trimStr (collapseNL t)

/- The parse phase with its single relaxed retry, reached only on a
   cross-reference error; the second component counts parse calls. -/
def pdfParsePhase (o : PdfParseOracle) : Except String (List Char) × Nat :=
  match o.firstAttempt with
  | Except.ok d => (Except.ok d, 1)
  | Except.error pe =>
    if xrefErr pe then
      match o.retryAttempt with
      | Except.ok d => (Except.ok d, 2)
      | Except.error _ => (Except.error (corruptedMsg pe), 2)
    else (Except.error pe, 1)

def extractTextFromPDF (o : PdfParseOracle) : Except String (List Char) × Nat :=
  match pdfParsePhase o with
  | (Except.error e, n) => (Except.error (classifyPdfError e), n)
  | (Except.ok d, n) =>
    if d.isEmpty then (Except.error (classifyPdfError noTextExtractedMsg), n)
    else
      let t := normalizePDF d
      if t.isEmpty then (Except.error (classifyPdfError imageOnlyMsg), n)
      else (Except.ok t, n)

/- Every successful continuation of the matcher is called on a suffix of
   the scanned text: matching only consumes characters. -/

theorem starK_suffix_of (p : Char → Bool) (k : List Char → Option α) :
    ∀ s r, starK p k s = some r → ∃ s', s' <:+ s ∧ k s' = some r := by
  intro s
  induction s with
  | nil =>
    intro r h
    exact ⟨[], List.suffix_refl _, h⟩
  | cons c rest ih =>
    intro r h
    simp only [starK] at h
    by_cases hp : p c
    · rw [if_pos hp] at h
      cases hsk : starK p k rest with
      | some r' =>
        rw [hsk] at h
        obtain rfl : r' = r := Option.some.inj h
        obtain ⟨s', hs, hk⟩ := ih _ hsk
        exact ⟨s', hs.trans (List.suffix_cons c rest), hk⟩
      | none =>
        rw [hsk] at h
        exact ⟨c :: rest, List.suffix_refl _, h⟩
    · rw [if_neg hp] at h
      exact ⟨c :: rest, List.suffix_refl _, h⟩

theorem matchK_suffix_of :
    ∀ (re : RE) (s : List Char) (k : List Char → Option α) (r : α),
      matchK re s k = some r → ∃ s', s' <:+ s ∧ k s' = some r := by
  intro re
  induction re with
  | eps =>
    intro s k r h
    exact ⟨s, List.suffix_refl _, h⟩
  | cls p =>
    intro s k r h
    cases s with
    | nil => simp [matchK] at h
    | cons c rest =>
      simp only [matchK] at h
      by_cases hp : p c
      · rw [if_pos hp] at h
        exact ⟨rest, List.suffix_cons c rest, h⟩
      · rw [if_neg hp] at h
        cases h
  | seq a b iha ihb =>
    intro s k r h
    simp only [matchK] at h
    obtain ⟨s1, hs1, h1⟩ := iha s _ r h
    obtain ⟨s2, hs2, h2⟩ := ihb s1 k r h1
    exact ⟨s2, hs2.trans hs1, h2⟩
  | alt a b iha ihb =>
    intro s k r h
    simp only [matchK] at h
    cases ha : matchK a s k with
    | some r' =>
      rw [ha] at h
      obtain rfl : r' = r := Option.some.inj h
      exact iha s k _ ha
    | none =>
      rw [ha] at h
      exact ihb s k r h
  | opt a iha =>
    intro s k r h
    simp only [matchK] at h
    cases ha : matchK a s k with
    | some r' =>
      rw [ha] at h
      obtain rfl : r' = r := Option.some.inj h
      exact iha s k _ ha
    | none =>
      rw [ha] at h
      exact ⟨s, List.suffix_refl _, h⟩
  | star p =>
    intro s k r h
    simp only [matchK] at h
    exact starK_suffix_of p k s r h

/- The global removal passes never lengthen the text. -/

theorem removeAllAux_length_le (re : RE) :
    ∀ fuel s, (removeAllAux re fuel s).length ≤ s.length := by
  intro fuel
  induction fuel with
  | zero =>
    intro s
    simp [removeAllAux]
  | succ n ih =>
    intro s
    cases s with
    | nil => simp [removeAllAux]
    | cons c rest =>
      simp only [removeAllAux]
      cases hm : matchK re (c :: rest) some with
      | some s' =>
        obtain ⟨s'', hs, hk⟩ := matchK_suffix_of re (c :: rest) some s' hm
        obtain rfl : s'' = s' := Option.some.inj hk
        exact le_trans (ih _) hs.sublist.length_le
      | none =>
        simpa using Nat.succ_le_succ (ih rest)

theorem removeAll_length_le (re : RE) (s : List Char) :
    (removeAll re s).length ≤ s.length :=
  removeAllAux_length_le re (s.length + 1) s

theorem remLinesAux_length_le (re : RE) :
    ∀ fuel b s, (remLinesAux re fuel b s).length ≤ s.length := by
  intro fuel
  induction fuel with
  | zero =>
    intro b s
    simp [remLinesAux]
  | succ n ih =>
    intro b s
    cases s with
    | nil => simp [remLinesAux]
    | cons c rest =>
      simp only [remLinesAux]
      by_cases hb : b
      · rw [if_pos hb]
        cases hm : matchK re (c :: rest) (fun s' => if eolOk s' then some s' else none) with
        | some s' =>
          obtain ⟨s'', hs, hk⟩ := matchK_suffix_of re (c :: rest) _ s' hm
          by_cases he : eolOk s''
          · rw [if_pos he] at hk
            obtain rfl : s'' = s' := Option.some.inj hk
            exact le_trans (ih _ _) hs.sublist.length_le
          · rw [if_neg he] at hk
            cases hk
        | none =>
          simpa using Nat.succ_le_succ (ih _ rest)
      · rw [if_neg hb]
        simpa using Nat.succ_le_succ (ih _ rest)

theorem remLines_length_le (re : RE) (s : List Char) :
    (remLines re s).length ≤ s.length :=
  remLinesAux_length_le re (s.length + 1) true s

/- Structure of the newline split and join. -/

theorem splitP_ne_nil (p : Char → Bool) : ∀ s, splitP p s ≠ [] := by
  intro s
  induction s with
  | nil => simp [splitP]
  | cons c cs ih =>
    simp only [splitP]
    by_cases hc : p c
    · simp [hc]
    · simp only [hc, if_neg]
      cases h : splitP p cs with
      | nil => exact absurd h ih
      | cons l ls => simp [List.modifyHead]

theorem splitNL_ne_nil (s : List Char) : splitNL s ≠ [] :=
  splitP_ne_nil _ s

theorem mem_splitP_no_sep (p : Char → Bool) :
    ∀ s l, l ∈ splitP p s → ∀ c ∈ l, p c = false := by
  intro s
  induction s with
  | nil =>
    intro l hl c hc
    simp [splitP] at hl
    subst hl
    simp at hc
  | cons a cs ih =>
    intro l hl c hc
    simp only [splitP] at hl
    by_cases ha : p a
    · rw [if_pos ha] at hl
      rcases List.mem_cons.mp hl with h | h
      · subst h; simp at hc
      · exact ih l h c hc
    · rw [if_neg ha] at hl
      cases hsp : splitP p cs with
      | nil => exact absurd hsp (splitP_ne_nil p cs)
      | cons m ms =>
        rw [hsp] at hl
        simp only [List.modifyHead] at hl
        rcases List.mem_cons.mp hl with h | h
        · subst h
          rcases List.mem_cons.mp hc with h' | h'
          · subst h'; simpa using ha
          · exact ih m (by simp [hsp]) c h'
        · exact ih l (by simp [hsp, h]) c hc

theorem mem_splitNL_no_nl (s : List Char) (l : List Char) (hl : l ∈ splitNL s) :
    '\n' ∉ l := by
  intro hmem
  have := mem_splitP_no_sep _ s l hl '\n' hmem
  simp at this

theorem joinNL_cons_cons (l l' : List Char) (ls : List (List Char)) :
    joinNL (l :: l' :: ls) = l ++ '\n' :: joinNL (l' :: ls) := rfl

theorem joinNL_modifyHead (c : Char) (L : List (List Char)) (h : L ≠ []) :
    joinNL (L.modifyHead (c :: ·)) = c :: joinNL L := by
  cases L with
  | nil => exact absurd rfl h
  | cons l ls =>
    cases ls with
    | nil => rfl
    | cons l' ls' => rfl

theorem joinNL_splitNL (s : List Char) : joinNL (splitNL s) = s := by
  induction s with
  | nil => rfl
  | cons c cs ih =>
    simp only [splitNL, splitP] at *
    by_cases hc : c = '\n'
    · subst hc
      rw [if_pos (by simp)]
      cases h : splitP (fun c => c == '\n') cs with
      | nil => exact absurd h (splitP_ne_nil _ cs)
      | cons l ls =>
        rw [h] at ih
        cases ls with
        | nil => simpa [joinNL] using ih
        | cons l' ls' => simpa [joinNL] using ih
    · have hc' : (c == '\n') = false := by simpa using hc
      simp only [hc', if_neg, Bool.false_eq_true, not_false_iff]
      rw [joinNL_modifyHead c _ (splitP_ne_nil _ cs), ih]

theorem splitNL_no_nl (a : List Char) (h : '\n' ∉ a) : splitNL a = [a] := by
  induction a with
  | nil => rfl
  | cons c cs ih =>
    have hc : ¬(c = '\n') := fun hcc => h (by simp [hcc])
    have hcs : '\n' ∉ cs := fun hm => h (List.mem_cons_of_mem c hm)
    simp only [splitNL, splitP] at *
    have hc' : (c == '\n') = false := by simpa using hc
    simp only [hc', if_neg, Bool.false_eq_true, not_false_iff]
    rw [ih hcs]
    rfl

theorem splitNL_append_nl (a x : List Char) (h : '\n' ∉ a) :
    splitNL (a ++ '\n' :: x) = a :: splitNL x := by
  induction a with
  | nil =>
    simp only [List.nil_append, splitNL, splitP]
    rfl
  | cons c cs ih =>
    have hc : ¬(c = '\n') := fun hcc => h (by simp [hcc])
    have hcs : '\n' ∉ cs := fun hm => h (List.mem_cons_of_mem c hm)
    simp only [List.cons_append, splitNL, splitP, List.append_eq] at *
    have hc' : (c == '\n') = false := by simpa using hc
    simp only [hc', if_neg, Bool.false_eq_true, not_false_iff]
    rw [ih hcs]
    rfl

theorem splitNL_joinNL :
    ∀ L : List (List Char), L ≠ [] → (∀ l ∈ L, '\n' ∉ l) → splitNL (joinNL L) = L := by
  intro L
  induction L with
  | nil => intro h; exact absurd rfl h
  | cons l ls ih =>
    intro _ hall
    cases ls with
    | nil =>
      simpa [joinNL] using splitNL_no_nl l (hall l (by simp))
    | cons l' ls' =>
      rw [joinNL_cons_cons]
      rw [splitNL_append_nl l _ (hall l (by simp))]
      rw [ih (by simp) (fun m hm => hall m (List.mem_cons_of_mem l hm))]

/- Properties of the trim of both ends. -/

theorem trimL_length_le (s : List Char) : (trimL s).length ≤ s.length :=
  (List.dropWhile_suffix isJsSpace).sublist.length_le

theorem trimR_length_le (s : List Char) : (trimR s).length ≤ s.length := by
  have h := List.rdropWhile_prefix isJsSpace s
  exact h.sublist.length_le

theorem trimStr_length_le (s : List Char) : (trimStr s).length ≤ s.length :=
  le_trans (trimR_length_le (trimL s)) (trimL_length_le s)

theorem trimStr_sublist (s : List Char) : List.Sublist (trimStr s) s := by
  have h1 := List.rdropWhile_prefix isJsSpace (trimL s)
  exact h1.sublist.trans (List.dropWhile_suffix isJsSpace).sublist

/- The head of a trimmed text is not whitespace. -/
theorem trimStr_head_not (s : List Char) (c : Char) (hc : (trimStr s).head? = some c) :
    isJsSpace c = false := by
  have hp := List.rdropWhile_prefix isJsSpace (trimL s)
  obtain ⟨t, ht⟩ := hp
  cases htr : trimStr s with
  | nil => rw [htr] at hc; cases hc
  | cons d ds =>
    rw [htr] at hc
    have hcd : d = c := by simpa using hc
    subst hcd
    have htr' : List.rdropWhile isJsSpace (trimL s) = d :: ds := htr
    rw [htr'] at ht
    have hhd : (trimL s).head? = some d := by
      rw [← ht]
      simp
    have hdw := List.head?_dropWhile_not isJsSpace s
    have hhd' : (List.dropWhile isJsSpace s).head? = some d := hhd
    rw [hhd'] at hdw
    exact hdw

/- The last character of a trimmed text is not whitespace. -/
theorem trimStr_getLast_not (s : List Char) (c : Char) (hc : (trimStr s).getLast? = some c) :
    isJsSpace c = false := by
  cases htr : trimStr s with
  | nil => rw [htr] at hc; cases hc
  | cons d ds =>
    have hne : trimStr s ≠ [] := by rw [htr]; simp
    have hne' : List.rdropWhile isJsSpace (trimL s) ≠ [] := hne
    have hlast := List.rdropWhile_last_not isJsSpace (trimL s) hne'
    have : (trimStr s).getLast hne = c := by
      have := List.getLast?_eq_getLast (trimStr s) hne
      rw [this] at hc
      exact (Option.some.inj hc)
    rw [← this] at hc ⊢
    simp only [trimStr] at *
    simpa using Bool.eq_false_iff.mpr hlast

/- Trimming text whose ends are not whitespace is the identity. -/
theorem trimStr_eq_self (s : List Char)
    (h1 : ∀ c, s.head? = some c → isJsSpace c = false)
    (h2 : ∀ c, s.getLast? = some c → isJsSpace c = false) :
    trimStr s = s := by
  have hL : trimL s = s := by
    cases s with
    | nil => rfl
    | cons c cs =>
      have := h1 c (by simp)
      simp [trimL, List.dropWhile_cons, this]
  rw [trimStr, hL]
  rcases List.eq_nil_or_concat' s with rfl | ⟨L, b, rfl⟩
  · rfl
  · have hb := h2 b (by simp)
    simp only [trimR]
    rw [List.rdropWhile_concat_neg]
    simp [hb]

theorem trimStr_idem (s : List Char) : trimStr (trimStr s) = trimStr s :=
  trimStr_eq_self (trimStr s) (trimStr_head_not s) (trimStr_getLast_not s)

theorem trimStr_nil : trimStr [] = [] := rfl

/- Properties of the three-newline detector and of the newline-run
   collapse. -/

theorem hasTriple_cons_of_ne (a : Char) (y : List Char) (ha : a ≠ '\n') :
    hasTriple (a :: y) = hasTriple y := by
  cases y with
  | nil => simp [hasTriple]
  | cons b ys =>
    cases ys with
    | nil => simp [hasTriple]
    | cons c t => simp [hasTriple, ha]

theorem hasTriple_cons_cons_of_ne (a b : Char) (y : List Char) (hb : b ≠ '\n') :
    hasTriple (a :: b :: y) = hasTriple (b :: y) := by
  cases y with
  | nil => simp [hasTriple]
  | cons c t => simp [hasTriple, hb]

theorem hasTriple_tail (a : Char) (y : List Char) (h : hasTriple (a :: y) = false) :
    hasTriple y = false := by
  cases y with
  | nil => rfl
  | cons b ys =>
    cases ys with
    | nil => rfl
    | cons c t =>
      simp only [hasTriple, Bool.or_eq_false_iff] at h
      exact h.2

theorem hasTriple_append_left (x y : List Char) (h : hasTriple (x ++ y) = false) :
    hasTriple x = false := by
  by_contra hx
  have hx' : hasTriple x = true := by
    cases hhx : hasTriple x with
    | false => exact absurd hhx hx
    | true => rfl
  have : hasTriple (x ++ y) = true := by
    clear h hx
    induction x with
    | nil => simp [hasTriple] at hx'
    | cons a rest ih =>
      cases rest with
      | nil => simp [hasTriple] at hx'
      | cons b rest' =>
        cases rest' with
        | nil => simp [hasTriple] at hx'
        | cons c t =>
          simp only [hasTriple, Bool.or_eq_true] at hx'
          rcases hx' with h1 | h2
          · simp only [List.cons_append, hasTriple, Bool.or_eq_true]
            exact Or.inl h1
          · simp only [List.cons_append, hasTriple, Bool.or_eq_true]
            exact Or.inr (by simpa [List.cons_append] using ih h2)
  rw [this] at h
  cases h

theorem hasTriple_append_right (x y : List Char) (h : hasTriple (x ++ y) = false) :
    hasTriple y = false := by
  induction x with
  | nil => exact h
  | cons a rest ih =>
    exact ih (hasTriple_tail a (rest ++ y) h)

theorem hasTriple_dropWhile (p : Char → Bool) (x : List Char) (h : hasTriple x = false) :
    hasTriple (x.dropWhile p) = false := by
  induction x with
  | nil => exact h
  | cons c t ih =>
    by_cases hp : p c
    · rw [List.dropWhile_cons_of_pos hp]
      exact ih (hasTriple_tail c t h)
    · rwa [List.dropWhile_cons_of_neg hp]

theorem hasTriple_trimStr (x : List Char) (h : hasTriple x = false) :
    hasTriple (trimStr x) = false := by
  have hL : hasTriple (trimL x) = false := hasTriple_dropWhile isJsSpace x h
  obtain ⟨t, ht⟩ := List.rdropWhile_prefix isJsSpace (trimL x)
  have : hasTriple (trimR (trimL x) ++ t) = false := by
    unfold trimR
    rw [ht]
    exact hL
  exact hasTriple_append_left _ t this

theorem hasTriple_of_no_nl (x : List Char) (h : '\n' ∉ x) : hasTriple x = false := by
  induction x with
  | nil => rfl
  | cons c t ih =>
    have hc : c ≠ '\n' := fun hcc => h (by simp [hcc])
    rw [hasTriple_cons_of_ne c t hc]
    exact ih (fun hm => h (List.mem_cons_of_mem c hm))

/- Prepending newline-free characters preserves triple-freeness. -/
theorem hasTriple_append_no_nl (l y : List Char) (hl : '\n' ∉ l)
    (h : hasTriple y = false) : hasTriple (l ++ y) = false := by
  induction l with
  | nil => exact h
  | cons a rest ih =>
    have ha : a ≠ '\n' := fun haa => hl (by simp [haa])
    rw [List.cons_append, hasTriple_cons_of_ne a _ ha]
    exact ih (fun hm => hl (List.mem_cons_of_mem a hm))

/- A newline join of non-empty newline-free lines has no blank line, in
   particular no triple newline. -/
theorem hasTriple_joinNL :
    ∀ L : List (List Char), (∀ l ∈ L, l ≠ [] ∧ '\n' ∉ l) → hasTriple (joinNL L) = false := by
  intro L
  induction L with
  | nil => intro _; rfl
  | cons l ls ih =>
    intro hall
    cases ls with
    | nil => exact hasTriple_of_no_nl l (hall l (by simp)).2
    | cons l' ls' =>
      rw [joinNL_cons_cons]
      obtain ⟨hl_ne, hl_nl⟩ := hall l (by simp)
      have hrest : hasTriple (joinNL (l' :: ls')) = false :=
        ih (fun m hm => hall m (List.mem_cons_of_mem l hm))
      obtain ⟨hl'_ne, _⟩ := hall l' (by simp)
      have hhead : ∃ d t', joinNL (l' :: ls') = d :: t' ∧ d ≠ '\n' := by
        cases hl' : l' with
        | nil => exact absurd hl' hl'_ne
        | cons d t =>
          cases ls' with
          | nil =>
            refine ⟨d, t, by simp [joinNL, hl'], ?_⟩
            intro hd
            exact (hall l' (by simp)).2 (by simp [hl', hd])
          | cons l'' ls'' =>
            refine ⟨d, t ++ '\n' :: joinNL (l'' :: ls''), by simp [joinNL_cons_cons, hl'], ?_⟩
            intro hd
            exact (hall l' (by simp)).2 (by simp [hl', hd])
      obtain ⟨d, t', hj, hd⟩ := hhead
      have hnl : hasTriple ('\n' :: joinNL (l' :: ls')) = false := by
        rw [hj]
        rw [hasTriple_cons_cons_of_ne '\n' d t' hd]
        rw [← hj]
        exact hrest
      exact hasTriple_append_no_nl l _ hl_nl hnl

/- The newline collapse never produces three consecutive newlines. -/
theorem hasTriple_collapseNLAux :
    ∀ (s : List Char) (p : Nat), hasTriple (collapseNLAux p s) = false := by
  intro s
  induction s with
  | nil =>
    intro p
    simp only [collapseNLAux]
    rcases p with _ | _ | n <;> simp [hasTriple, List.replicate]
  | cons c cs ih =>
    intro p
    simp only [collapseNLAux]
    by_cases hc : c = '\n'
    · rw [if_pos hc]
      exact ih (p + 1)
    · rw [if_neg hc]
      have hrest : hasTriple (c :: collapseNLAux 0 cs) = false := by
        rw [hasTriple_cons_of_ne c _ hc]
        exact ih 0
      rcases p with _ | _ | n
      · simpa using hrest
      · have hm : min 1 2 = 1 := rfl
        rw [hm]
        have hrep : List.replicate 1 '\n' = ['\n'] := rfl
        rw [hrep, List.singleton_append]
        rw [hasTriple_cons_cons_of_ne '\n' c _ hc]
        exact hrest
      · have hm : min (n + 2) 2 = 2 := by omega
        rw [hm]
        have hrep : List.replicate 2 '\n' = ['\n', '\n'] := rfl
        rw [hrep]
        have hshape : ['\n', '\n'] ++ c :: collapseNLAux 0 cs =
            '\n' :: '\n' :: c :: collapseNLAux 0 cs := rfl
        rw [hshape]
        simp only [hasTriple, Bool.or_eq_false_iff]
        constructor
        · simp [hc]
        · rw [hasTriple_cons_cons_of_ne '\n' c _ hc]
          exact hrest

theorem hasTriple_collapseNL (s : List Char) : hasTriple (collapseNL s) = false :=
  hasTriple_collapseNLAux s 0

/- The newline collapse leaves a triple-free text unchanged. -/
theorem collapseNLAux_eq_self :
    ∀ (n : Nat) (x : List Char), x.length ≤ n → hasTriple x = false →
      collapseNLAux 0 x = x := by
  intro n
  induction n with
  | zero =>
    intro x hx _
    have : x = [] := List.length_eq_zero.mp (Nat.le_zero.mp hx)
    subst this
    rfl
  | succ m ih =>
    intro x hx htr
    cases x with
    | nil => rfl
    | cons c cs =>
      by_cases hc : c = '\n'
      · subst hc
        cases cs with
        | nil => rfl
        | cons d ds =>
          by_cases hd : d = '\n'
          · subst hd
            cases ds with
            | nil => rfl
            | cons e es =>
              by_cases he : e = '\n'
              · exfalso
                subst he
                simp [hasTriple] at htr
              · -- two newlines then a non-newline
                show collapseNLAux 0 ('\n' :: '\n' :: e :: es) = '\n' :: '\n' :: e :: es
                simp only [collapseNLAux, if_pos rfl, if_neg he]
                have hes : hasTriple es = false :=
                  hasTriple_tail _ _ (hasTriple_tail _ _ (hasTriple_tail _ _ htr))
                have hlen : es.length ≤ m := by
                  simp only [List.length_cons] at hx
                  omega
                rw [ih es hlen hes]
                rfl
          · show collapseNLAux 0 ('\n' :: d :: ds) = '\n' :: d :: ds
            simp only [collapseNLAux, if_pos rfl, if_neg hd]
            have hds : hasTriple ds = false :=
              hasTriple_tail _ _ (hasTriple_tail _ _ htr)
            have hlen : ds.length ≤ m := by
              simp only [List.length_cons] at hx
              omega
            rw [ih ds hlen hds]
            rfl
      · show collapseNLAux 0 (c :: cs) = c :: cs
        simp only [collapseNLAux, if_neg hc]
        have hcs : hasTriple cs = false := hasTriple_tail _ _ htr
        have hlen : cs.length ≤ m := by
          simp only [List.length_cons] at hx
          omega
        rw [ih cs hlen hcs]
        rfl

theorem collapseNL_eq_self (x : List Char) (h : hasTriple x = false) :
    collapseNL x = x :=
  collapseNLAux_eq_self x.length x (Nat.le_refl _) h

/- The newline collapse never lengthens the text. -/
theorem collapseNLAux_length_le :
    ∀ (s : List Char) (p : Nat), (collapseNLAux p s).length ≤ min p 2 + s.length := by
  intro s
  induction s with
  | nil =>
    intro p
    simp [collapseNLAux]
  | cons c cs ih =>
    intro p
    simp only [collapseNLAux]
    by_cases hc : c = '\n'
    · rw [if_pos hc]
      have := ih (p + 1)
      simp only [List.length_cons]
      omega
    · rw [if_neg hc]
      have := ih 0
      simp only [List.length_append, List.length_replicate, List.length_cons]
      omega

theorem collapseNL_length_le (s : List Char) : (collapseNL s).length ≤ s.length := by
  have := collapseNLAux_length_le s 0
  simpa using this

/- Properties of the horizontal-blank collapse. -/

theorem collapseHz_nil : collapseHz [] = [] := rfl

theorem collapseHzAux_true_eq (cs : List Char) :
    collapseHzAux true cs = collapseHz (cs.dropWhile isHz) := by
  induction cs with
  | nil => rfl
  | cons d ds ih =>
    by_cases hd : isHz d
    · rw [List.dropWhile_cons_of_pos hd]
      simp only [collapseHzAux, hd, if_pos, ite_true]
      exact ih
    · rw [List.dropWhile_cons_of_neg hd]
      have hd' : isHz d = false := by simpa using hd
      simp only [collapseHzAux, collapseHz, hd', Bool.false_eq_true, if_neg, ite_false]

theorem collapseHz_cons_pos (c : Char) (cs : List Char) (h : isHz c = true) :
    collapseHz (c :: cs) = ' ' :: collapseHz (cs.dropWhile isHz) := by
  simp only [collapseHz, collapseHzAux, h, if_pos, ite_true, Bool.false_eq_true, ite_false]
  rw [collapseHzAux_true_eq]
  rfl

theorem collapseHz_cons_neg (c : Char) (cs : List Char) (h : isHz c = false) :
    collapseHz (c :: cs) = c :: collapseHz cs := by
  simp only [collapseHz, collapseHzAux, h, Bool.false_eq_true, if_neg, ite_false]

theorem collapseHz_length_le_aux :
    ∀ (n : Nat) (s : List Char), s.length ≤ n → (collapseHz s).length ≤ s.length := by
  intro n
  induction n with
  | zero =>
    intro s hs
    have : s = [] := List.length_eq_zero.mp (Nat.le_zero.mp hs)
    subst this
    simp [collapseHz_nil]
  | succ m ih =>
    intro s hs
    cases s with
    | nil => simp [collapseHz_nil]
    | cons c cs =>
      by_cases hc : isHz c
      · rw [collapseHz_cons_pos c cs hc]
        have hdw : (cs.dropWhile isHz).length ≤ cs.length :=
          (List.dropWhile_suffix isHz).sublist.length_le
        have h1 : (collapseHz (cs.dropWhile isHz)).length ≤ (cs.dropWhile isHz).length := by
          apply ih
          simp only [List.length_cons] at hs
          omega
        simp only [List.length_cons]
        omega
      · rw [collapseHz_cons_neg c cs (by simpa using hc)]
        have h1 : (collapseHz cs).length ≤ cs.length := by
          apply ih
          simp only [List.length_cons] at hs
          omega
        simp only [List.length_cons]
        omega

theorem collapseHz_length_le (s : List Char) : (collapseHz s).length ≤ s.length :=
  collapseHz_length_le_aux s.length s (Nat.le_refl _)

/- Counting characters of a class disjoint from horizontal blanks is
   invariant under the collapse. -/
theorem countP_dropWhile_hz (q : Char → Bool) (hq : ∀ c, isHz c = true → q c = false) :
    ∀ cs : List Char, List.countP q (cs.dropWhile isHz) = List.countP q cs := by
  intro cs
  induction cs with
  | nil => rfl
  | cons c cs ih =>
    by_cases hc : isHz c
    · rw [List.dropWhile_cons_of_pos hc, ih, List.countP_cons]
      simp [hq c hc]
    · rw [List.dropWhile_cons_of_neg hc]

theorem countP_collapseHz (q : Char → Bool) (hq : ∀ c, isHz c = true → q c = false) :
    ∀ (n : Nat) (s : List Char), s.length ≤ n →
      List.countP q (collapseHz s) = List.countP q s := by
  intro n
  induction n with
  | zero =>
    intro s hs
    have : s = [] := List.length_eq_zero.mp (Nat.le_zero.mp hs)
    subst this
    simp [collapseHz_nil]
  | succ m ih =>
    intro s hs
    cases s with
    | nil => simp [collapseHz_nil]
    | cons c cs =>
      by_cases hc : isHz c
      · rw [collapseHz_cons_pos c cs hc]
        have hlen : (cs.dropWhile isHz).length ≤ m := by
          have := (List.dropWhile_suffix isHz (l := cs)).sublist.length_le
          simp only [List.length_cons] at hs
          omega
        rw [List.countP_cons, List.countP_cons, ih _ hlen, countP_dropWhile_hz q hq cs]
        have hsp : q ' ' = false := hq ' ' (by rfl)
        have hcq : q c = false := hq c hc
        simp [hsp, hcq]
      · rw [collapseHz_cons_neg c cs (by simpa using hc)]
        have hlen : cs.length ≤ m := by
          simp only [List.length_cons] at hs
          omega
        rw [List.countP_cons, List.countP_cons, ih _ hlen]

theorem countAlnum_collapseHz (s : List Char) :
    countAlnum (collapseHz s) = countAlnum s := by
  have hq : ∀ c, isHz c = true → isAlnumCh c = false := by
    intro c hc
    simp only [isHz] at hc
    rcases Bool.or_eq_true_iff.mp hc with h | h
    · have : c = ' ' := by simpa using h
      subst this
      rfl
    · have : c = '\t' := by simpa using h
      subst this
      rfl
  exact countP_collapseHz isAlnumCh hq s.length s (Nat.le_refl _)

/- Characters of the collapse output come from the input or are the
   space emitted for a run. -/
theorem mem_collapseHz :
    ∀ (n : Nat) (s : List Char), s.length ≤ n →
      ∀ c ∈ collapseHz s, c ∈ s ∨ c = ' ' := by
  intro n
  induction n with
  | zero =>
    intro s hs c hc
    have : s = [] := List.length_eq_zero.mp (Nat.le_zero.mp hs)
    subst this
    rw [collapseHz_nil] at hc
    cases hc
  | succ m ih =>
    intro s hs c hc
    cases s with
    | nil => rw [collapseHz_nil] at hc; cases hc
    | cons a cs =>
      by_cases ha : isHz a
      · rw [collapseHz_cons_pos a cs ha] at hc
        rcases List.mem_cons.mp hc with h | h
        · exact Or.inr h
        · have hlen : (cs.dropWhile isHz).length ≤ m := by
            have := (List.dropWhile_suffix isHz (l := cs)).sublist.length_le
            simp only [List.length_cons] at hs
            omega
          rcases ih _ hlen c h with h' | h'
          · exact Or.inl (List.mem_cons_of_mem a ((List.dropWhile_suffix isHz).sublist.mem h'))
          · exact Or.inr h'
      · rw [collapseHz_cons_neg a cs (by simpa using ha)] at hc
        rcases List.mem_cons.mp hc with h | h
        · exact Or.inl (by simp [h])
        · have hlen : cs.length ≤ m := by
            simp only [List.length_cons] at hs
            omega
          rcases ih _ hlen c h with h' | h'
          · exact Or.inl (List.mem_cons_of_mem a h')
          · exact Or.inr h'

theorem no_nl_collapseHz (s : List Char) (h : '\n' ∉ s) : '\n' ∉ collapseHz s := by
  intro hmem
  rcases mem_collapseHz s.length s (Nat.le_refl _) '\n' hmem with h' | h'
  · exact h h'
  · cases h'

/- The collapse emits a blank for the first run, so a text containing a
   horizontal blank still contains one after collapsing. -/
theorem collapseHz_keeps_hz :
    ∀ (n : Nat) (s : List Char), s.length ≤ n → (∃ c ∈ s, isHz c = true) →
      0 < List.countP isHz (collapseHz s) := by
  intro n
  induction n with
  | zero =>
    intro s hs hex
    have : s = [] := List.length_eq_zero.mp (Nat.le_zero.mp hs)
    subst this
    obtain ⟨c, hc, _⟩ := hex
    cases hc
  | succ m ih =>
    intro s hs hex
    cases s with
    | nil =>
      obtain ⟨c, hc, _⟩ := hex
      cases hc
    | cons a cs =>
      by_cases ha : isHz a
      · rw [collapseHz_cons_pos a cs ha]
        rw [List.countP_cons]
        have : isHz ' ' = true := rfl
        simp [this]
      · rw [collapseHz_cons_neg a cs (by simpa using ha)]
        have hex' : ∃ c ∈ cs, isHz c = true := by
          obtain ⟨c, hc, hchz⟩ := hex
          rcases List.mem_cons.mp hc with h | h
          · subst h; exact absurd hchz (by simpa using ha)
          · exact ⟨c, h, hchz⟩
        have hlen : cs.length ≤ m := by
          simp only [List.length_cons] at hs
          omega
        rw [List.countP_cons]
        have := ih cs hlen hex'
        omega

/- Collapsing a text with no horizontal blank is the identity. -/
theorem collapseHz_eq_self :
    ∀ (n : Nat) (s : List Char), s.length ≤ n → (∀ c ∈ s, isHz c = false) →
      collapseHz s = s := by
  intro n
  induction n with
  | zero =>
    intro s hs _
    have : s = [] := List.length_eq_zero.mp (Nat.le_zero.mp hs)
    subst this
    exact collapseHz_nil
  | succ m ih =>
    intro s hs hall
    cases s with
    | nil => exact collapseHz_nil
    | cons a cs =>
      have ha : isHz a = false := hall a (by simp)
      rw [collapseHz_cons_neg a cs ha]
      have hlen : cs.length ≤ m := by
        simp only [List.length_cons] at hs
        omega
      rw [ih cs hlen (fun c hc => hall c (List.mem_cons_of_mem a hc))]

/- A line that passed the density filter keeps at least three
   characters after the horizontal collapse, because its ends are not
   whitespace. -/
theorem collapseHz_min_length (l : List Char)
    (hlen : 3 ≤ l.length)
    (hhead : ∀ c, l.head? = some c → isJsSpace c = false)
    (hlast : ∀ c, l.getLast? = some c → isJsSpace c = false) :
    3 ≤ (collapseHz l).length := by
  by_cases hex : ∃ c ∈ l, isHz c = true
  · -- the ends are not blanks, so at least two non-blank characters
    have hcount : 2 ≤ List.countP (fun c => !(isHz c)) l := by
      cases l with
      | nil => simp at hlen
      | cons a t =>
        have ha : isJsSpace a = false := hhead a (by simp)
        have hahz : isHz a = false := by
          cases hha : isHz a with
          | false => rfl
          | true =>
            exfalso
            simp only [isHz] at hha
            rcases Bool.or_eq_true_iff.mp hha with h | h
            · have : a = ' ' := by simpa using h
              subst this; simp [isJsSpace] at ha
            · have : a = '\t' := by simpa using h
              subst this; simp [isJsSpace] at ha
        have ht_ne : t ≠ [] := by
          intro h
          subst h
          simp at hlen
        obtain ⟨b, hb⟩ : ∃ b, t.getLast? = some b := by
          cases t with
          | nil => exact absurd rfl ht_ne
          | cons x xs => exact ⟨(x :: xs).getLast (by simp), List.getLast?_eq_getLast _ _⟩
        have hblast : (a :: t).getLast? = some b := by
          cases t with
          | nil => exact absurd rfl ht_ne
          | cons x xs => rw [← hb]; exact List.getLast?_cons_cons
        have hbsp : isJsSpace b = false := hlast b hblast
        have hbhz : isHz b = false := by
          cases hhb : isHz b with
          | false => rfl
          | true =>
            exfalso
            simp only [isHz] at hhb
            rcases Bool.or_eq_true_iff.mp hhb with h | h
            · have : b = ' ' := by simpa using h
              subst this; simp [isJsSpace] at hbsp
            · have : b = '\t' := by simpa using h
              subst this; simp [isJsSpace] at hbsp
        have hbmem : b ∈ t := by
          have := List.mem_getLast?_eq_getLast (l := t) (x := b) (by rw [hb]; rfl)
          obtain ⟨hne, hbl⟩ := this
          rw [hbl]
          exact List.getLast_mem hne
        have h1 : 0 < List.countP (fun c => !(isHz c)) t := by
          rw [List.countP_pos]
          exact ⟨b, hbmem, by simp [hbhz]⟩
        rw [List.countP_cons]
        have hone : (if (fun c => !isHz c) a = true then 1 else 0) = 1 := by
          simp [hahz]
        rw [hone]
        omega
    have hkeep : List.countP (fun c => !(isHz c)) (collapseHz l) =
        List.countP (fun c => !(isHz c)) l :=
      countP_collapseHz _ (fun c hc => by simp [hc]) l.length l (Nat.le_refl _)
    have hsp : 0 < List.countP isHz (collapseHz l) :=
      collapseHz_keeps_hz l.length l (Nat.le_refl _) hex
    have hlen' := List.length_eq_countP_add_countP isHz (collapseHz l)
    have : List.countP (fun c => decide ¬isHz c = true) (collapseHz l) =
        List.countP (fun c => !(isHz c)) (collapseHz l) := by
      apply List.countP_congr
      intro c _
      cases isHz c <;> simp
    omega
  · push_neg at hex
    have hall : ∀ c ∈ l, isHz c = false := by
      intro c hc
      have := hex c hc
      simpa using this
    rw [collapseHz_eq_self l.length l (Nat.le_refl _) hall]
    exact hlen

theorem jsSpace_of_hz (c : Char) (h : isHz c = true) : isJsSpace c = true := by
  simp only [isHz] at h
  rcases Bool.or_eq_true_iff.mp h with h' | h'
  · have : c = ' ' := by simpa using h'
    subst this; rfl
  · have : c = '\t' := by simpa using h'
    subst this; rfl

theorem hz_false_of_space_false (c : Char) (h : isJsSpace c = false) : isHz c = false := by
  cases hc : isHz c with
  | false => rfl
  | true => rw [jsSpace_of_hz c hc] at h; cases h

/- The collapse preserves a non-blank head. -/
theorem collapseHz_head (c : Char) (cs : List Char) (h : isHz c = false) :
    (collapseHz (c :: cs)).head? = some c := by
  rw [collapseHz_cons_neg c cs h]
  rfl

/- The collapse of a text whose last character is not whitespace is
   non-empty with a non-whitespace last character. -/
theorem collapseHz_getLast_not :
    ∀ (n : Nat) (l : List Char), l.length ≤ n → l ≠ [] →
      (∀ c, l.getLast? = some c → isJsSpace c = false) →
      collapseHz l ≠ [] ∧ ∀ c, (collapseHz l).getLast? = some c → isJsSpace c = false := by
  intro n
  induction n with
  | zero =>
    intro l hl hne _
    exact absurd (List.length_eq_zero.mp (Nat.le_zero.mp hl)) hne
  | succ m ih =>
    intro l hl hne hlast
    cases l with
    | nil => exact absurd rfl hne
    | cons a cs =>
      cases cs with
      | nil =>
        have ha : isJsSpace a = false := hlast a rfl
        have hahz : isHz a = false := hz_false_of_space_false a ha
        rw [collapseHz_cons_neg a [] hahz, collapseHz_nil]
        exact ⟨by simp, fun c hc => by
          have : a = c := by simpa using hc
          subst this
          exact ha⟩
      | cons x xs =>
        have hlast' : ∀ c, (x :: xs).getLast? = some c → isJsSpace c = false := by
          intro c hc
          exact hlast c (by rw [List.getLast?_cons_cons]; exact hc)
        by_cases ha : isHz a
        · rw [collapseHz_cons_pos a (x :: xs) ha]
          set d := (x :: xs).dropWhile isHz with hd
          have hdne : d ≠ [] := by
            intro hdnil
            have hall := List.dropWhile_eq_nil_iff.mp hdnil
            obtain ⟨b, hb⟩ : ∃ b, (x :: xs).getLast? = some b :=
              ⟨(x :: xs).getLast (by simp), List.getLast?_eq_getLast _ _⟩
            have hbmem : b ∈ x :: xs := by
              obtain ⟨hh, hbl⟩ := List.mem_getLast?_eq_getLast (by rw [hb]; rfl)
              rw [hbl]
              exact List.getLast_mem hh
            have := jsSpace_of_hz b (hall b hbmem)
            rw [hlast' b hb] at this
            cases this
          have hdlast : d.getLast? = (x :: xs).getLast? := by
            conv_rhs => rw [← List.takeWhile_append_dropWhile (p := isHz) (l := x :: xs)]
            rw [List.getLast?_append_of_ne_nil _ hdne]
          have hdlen : d.length ≤ m := by
            have h1 : d.length ≤ (x :: xs).length := (List.dropWhile_suffix isHz).sublist.length_le
            simp only [List.length_cons] at hl h1 ⊢
            omega
          obtain ⟨hcne, hclast⟩ := ih d hdlen hdne (by rw [hdlast]; exact hlast')
          constructor
          · simp
          · intro c hc
            apply hclast c
            cases hcol : collapseHz d with
            | nil => exact absurd hcol hcne
            | cons y ys =>
              rw [hcol] at hc
              rw [List.getLast?_cons_cons] at hc
              exact hc
        · rw [collapseHz_cons_neg a (x :: xs) (by simpa using ha)]
          have hlen' : (x :: xs).length ≤ m := by
            simp only [List.length_cons] at hl ⊢
            omega
          obtain ⟨hcne, hclast⟩ := ih (x :: xs) hlen' (by simp) hlast'
          constructor
          · simp
          · intro c hc
            apply hclast c
            cases hcol : collapseHz (x :: xs) with
            | nil => exact absurd hcol hcne
            | cons y ys =>
              rw [hcol] at hc
              rw [List.getLast?_cons_cons] at hc
              exact hc

/- The collapse acts line by line: a newline is never part of a blank
   run. -/
theorem collapseHz_append_nl :
    ∀ (n : Nat) (a : List Char), a.length ≤ n → ∀ b,
      collapseHz (a ++ '\n' :: b) = collapseHz a ++ '\n' :: collapseHz b := by
  intro n
  induction n with
  | zero =>
    intro a ha b
    have : a = [] := List.length_eq_zero.mp (Nat.le_zero.mp ha)
    subst this
    simp only [List.nil_append, collapseHz_nil]
    rw [collapseHz_cons_neg '\n' b rfl]
  | succ m ih =>
    intro a ha b
    cases a with
    | nil =>
      simp only [List.nil_append, collapseHz_nil]
      rw [collapseHz_cons_neg '\n' b rfl]
    | cons c a' =>
      by_cases hc : isHz c
      · rw [List.cons_append, collapseHz_cons_pos c _ hc, collapseHz_cons_pos c a' hc]
        rw [List.dropWhile_append]
        cases hdw : (a'.dropWhile isHz).isEmpty
        · simp only [hdw, Bool.false_eq_true, if_neg, ite_false]
          have hlen : (a'.dropWhile isHz).length ≤ m := by
            have h1 : (a'.dropWhile isHz).length ≤ a'.length :=
              (List.dropWhile_suffix isHz).sublist.length_le
            simp only [List.length_cons] at ha
            omega
          rw [ih _ hlen b]
          simp
        · simp only [hdw, if_pos, ite_true]
          have hnil : a'.dropWhile isHz = [] := by
            cases h : a'.dropWhile isHz with
            | nil => rfl
            | cons z zs => rw [h] at hdw; simp at hdw
          rw [hnil, collapseHz_nil]
          rw [List.dropWhile_cons_of_neg (by decide)]
          rw [collapseHz_cons_neg '\n' b rfl]
          simp
      · rw [List.cons_append, collapseHz_cons_neg c _ (by simpa using hc),
          collapseHz_cons_neg c a' (by simpa using hc)]
        have hlen : a'.length ≤ m := by
          simp only [List.length_cons] at ha
          omega
        rw [ih a' hlen b]
        simp

/- Head and last of a newline join of non-empty lines. -/

theorem joinNL_ne_nil (L : List (List Char)) (hL : L ≠ []) (hall : ∀ l ∈ L, l ≠ []) :
    joinNL L ≠ [] := by
  cases L with
  | nil => exact absurd rfl hL
  | cons l ls =>
    cases ls with
    | nil => exact hall l (by simp)
    | cons l' ls' =>
      rw [joinNL_cons_cons]
      cases hl : l with
      | nil => exact absurd hl (hall l (by simp))
      | cons c cs => simp

theorem joinNL_head? (l : List Char) (ls : List (List Char)) (hl : l ≠ []) :
    (joinNL (l :: ls)).head? = l.head? := by
  cases ls with
  | nil => rfl
  | cons l' ls' =>
    rw [joinNL_cons_cons]
    exact List.head?_append_of_ne_nil l hl

theorem joinNL_getLast? :
    ∀ (L : List (List Char)) (l : List Char), L.getLast? = some l → l ≠ [] →
      (joinNL L).getLast? = l.getLast? := by
  intro L
  induction L with
  | nil =>
    intro l h _
    cases h
  | cons x ls ih =>
    intro l h hl
    cases ls with
    | nil =>
      have : x = l := by simpa using h
      subst this
      rfl
    | cons y ys =>
      have h' : (y :: ys).getLast? = some l := by
        rw [← List.getLast?_cons_cons (a := x)]
        exact h
      have hj := ih l h' hl
      rw [joinNL_cons_cons]
      rw [List.getLast?_append_of_ne_nil x (by simp)]
      have hjne : joinNL (y :: ys) ≠ [] := by
        intro hnil
        rw [hnil] at hj
        cases hlast : l.getLast? with
        | none =>
          cases l with
          | nil => exact hl rfl
          | cons a t => rw [List.getLast?_eq_getLast (a :: t) (by simp)] at hlast; cases hlast
        | some b => rw [hlast] at hj; cases hj
      cases hcol : joinNL (y :: ys) with
      | nil => exact absurd hcol hjne
      | cons j js =>
        rw [List.getLast?_cons_cons]
        rw [← hcol, hj]

/- Trimming a join of lines with clean ends is the identity. -/
theorem trim_joinNL_noop (L : List (List Char)) (hL : L ≠ [])
    (hall : ∀ l ∈ L, l ≠ [] ∧ (∀ c, l.head? = some c → isJsSpace c = false) ∧
      (∀ c, l.getLast? = some c → isJsSpace c = false)) :
    trimStr (joinNL L) = joinNL L := by
  apply trimStr_eq_self
  · intro c hc
    cases L with
    | nil => exact absurd rfl hL
    | cons l ls =>
      obtain ⟨hne, hhd, _⟩ := hall l (by simp)
      rw [joinNL_head? l ls hne] at hc
      exact hhd c hc
  · intro c hc
    obtain ⟨lastL, hlastL⟩ : ∃ m, L.getLast? = some m := by
      cases L with
      | nil => exact absurd rfl hL
      | cons x xs => exact ⟨(x :: xs).getLast (by simp), List.getLast?_eq_getLast _ _⟩
    have hmem : lastL ∈ L := by
      obtain ⟨hh, hbl⟩ := List.mem_getLast?_eq_getLast (by rw [hlastL]; rfl)
      rw [hbl]
      exact List.getLast_mem hh
    obtain ⟨hne, _, hlst⟩ := hall lastL hmem
    rw [joinNL_getLast? L lastL hlastL hne] at hc
    exact hlst c hc

/- The horizontal collapse distributes over the newline join. -/
theorem collapseHz_joinNL : ∀ L : List (List Char),
    collapseHz (joinNL L) = joinNL (L.map collapseHz) := by
  intro L
  induction L with
  | nil => exact collapseHz_nil
  | cons l ls ih =>
    cases ls with
    | nil => rfl
    | cons l' ls' =>
      rw [joinNL_cons_cons]
      rw [collapseHz_append_nl l.length l (Nat.le_refl _) _]
      rw [ih]
      rfl

/- A line as produced by the density filter: non-empty, newline-free,
   whitespace-free ends, passing the density threshold. -/
def GoodLine (l : List Char) : Prop :=
  l ≠ [] ∧ '\n' ∉ l ∧ (∀ c, l.head? = some c → isJsSpace c = false) ∧
    (∀ c, l.getLast? = some c → isJsSpace c = false) ∧ densityKeep l = true

theorem densityKeep_len (l : List Char) (h : densityKeep l = true) : 3 ≤ l.length := by
  simp only [densityKeep, Bool.and_eq_true, Bool.not_eq_true', decide_eq_false_iff_not] at h
  omega

theorem densityKeep_ratio (l : List Char) (h : densityKeep l = true) :
    3 * l.length ≤ 10 * countAlnum l := by
  simp only [densityKeep, Bool.and_eq_true, decide_eq_true_eq] at h
  exact h.2

/- The lines kept by the density filter. -/
def denseLines (t : List Char) : List (List Char) :=
  ((splitNL t).map trimStr).filter densityKeep

theorem stageDensity_eq (t : List Char) : stageDensity t = joinNL (denseLines t) := rfl

theorem denseLines_good (t : List Char) : ∀ l ∈ denseLines t, GoodLine l := by
  intro l hl
  have hk : densityKeep l = true := List.of_mem_filter hl
  have hmem : l ∈ (splitNL t).map trimStr := List.mem_of_mem_filter hl
  obtain ⟨x, hx, rfl⟩ := List.mem_map.mp hmem
  refine ⟨?_, ?_, trimStr_head_not x, trimStr_getLast_not x, hk⟩
  · intro hnil
    have := densityKeep_len _ hk
    rw [hnil] at this
    simp at this
  · intro hmemnl
    exact mem_splitNL_no_nl t x hx ((trimStr_sublist x).mem hmemnl)

/- The horizontal collapse preserves the good-line shape and the
   density guarantee. -/
theorem goodLine_collapseHz (l : List Char) (h : GoodLine l) : GoodLine (collapseHz l) := by
  obtain ⟨hne, hnl, hhd, hlst, hk⟩ := h
  have hlen3 : 3 ≤ l.length := densityKeep_len l hk
  have hlen3' : 3 ≤ (collapseHz l).length := collapseHz_min_length l hlen3 hhd hlst
  have hlast' := collapseHz_getLast_not l.length l (Nat.le_refl _) hne hlst
  refine ⟨?_, no_nl_collapseHz l hnl, ?_, hlast'.2, ?_⟩
  · exact hlast'.1
  · intro c hc
    cases l with
    | nil => exact absurd rfl hne
    | cons a cs =>
      have ha : isJsSpace a = false := hhd a rfl
      rw [collapseHz_head a cs (hz_false_of_space_false a ha)] at hc
      have : a = c := by simpa using hc
      subst this
      exact ha
  · simp only [densityKeep, Bool.and_eq_true, Bool.not_eq_true', decide_eq_false_iff_not,
      decide_eq_true_eq]
    constructor
    · omega
    · have h1 : (collapseHz l).length ≤ l.length := collapseHz_length_le l
      have h2 : countAlnum (collapseHz l) = countAlnum l := countAlnum_collapseHz l
      have h3 : 3 * l.length ≤ 10 * countAlnum l := densityKeep_ratio l hk
      omega

/- The collapse and trim stage leaves a join of good lines in
   line-by-line form. -/
theorem stageWhitespace_joinNL (L : List (List Char)) (hL : L ≠ [])
    (hall : ∀ l ∈ L, GoodLine l) :
    stageWhitespace (joinNL L) = joinNL (L.map collapseHz) := by
  unfold stageWhitespace
  have h1 : collapseNL (joinNL L) = joinNL L := by
    apply collapseNL_eq_self
    apply hasTriple_joinNL
    intro l hl
    exact ⟨(hall l hl).1, (hall l hl).2.1⟩
  rw [h1, collapseHz_joinNL]
  apply trim_joinNL_noop
  · intro hnil
    cases L with
    | nil => exact absurd rfl hL
    | cons l ls => cases hnil
  · intro m hm
    obtain ⟨l, hl, rfl⟩ := List.mem_map.mp hm
    have hg := goodLine_collapseHz l (hall l hl)
    exact ⟨hg.1, hg.2.2.1, hg.2.2.2.1⟩

/- The engagement stage of a join of good lines filters them. -/
theorem stageEngagement_joinNL (L : List (List Char)) (hL : L ≠ [])
    (hall : ∀ l ∈ L, GoodLine l) :
    stageEngagement (joinNL L) = joinNL (L.filter engagementKeep) := by
  unfold stageEngagement
  rw [splitNL_joinNL L hL (fun l hl => (hall l hl).2.1)]

/- Every line of the cleaner's output passes the density filter. -/
theorem clean_output_lines_dense (u : List Char) :
    ∀ l ∈ linesOf (trimStr (stageEngagement (stageWhitespace (stageDensity u)))),
      densityKeep l = true := by
  intro l hl
  rw [stageDensity_eq] at hl
  set L := denseLines u with hLdef
  have hgood : ∀ m ∈ L, GoodLine m := denseLines_good u
  cases hLnil : L with
  | nil =>
    rw [hLnil] at hl
    simp only [joinNL] at hl
    have : stageWhitespace [] = [] := by
      unfold stageWhitespace
      rw [show collapseNL [] = [] from rfl, collapseHz_nil, trimStr_nil]
    rw [this] at hl
    have : stageEngagement [] = [] := by
      unfold stageEngagement
      have hsp : splitNL [] = [[]] := rfl
      rw [hsp]
      have : engagementKeep [] = false := rfl
      simp [List.filter, this, joinNL]
    rw [this] at hl
    rw [trimStr_nil] at hl
    simp [linesOf] at hl
  | cons l0 ls0 =>
    have hLne : L ≠ [] := by rw [hLnil]; simp
    rw [stageWhitespace_joinNL L hLne hgood] at hl
    set L2 := L.map collapseHz with hL2def
    have hgood2 : ∀ m ∈ L2, GoodLine m := by
      intro m hm
      obtain ⟨x, hx, rfl⟩ := List.mem_map.mp hm
      exact goodLine_collapseHz x (hgood x hx)
    have hL2ne : L2 ≠ [] := by
      rw [hL2def, hLnil]
      simp
    rw [stageEngagement_joinNL L2 hL2ne hgood2] at hl
    set L3 := L2.filter engagementKeep with hL3def
    have hgood3 : ∀ m ∈ L3, GoodLine m := by
      intro m hm
      exact hgood2 m (List.mem_of_mem_filter hm)
    cases hL3nil : L3 with
    | nil =>
      rw [hL3nil] at hl
      simp only [joinNL, trimStr_nil] at hl
      simp [linesOf] at hl
    | cons m0 ms0 =>
      have hL3ne : L3 ≠ [] := by rw [hL3nil]; simp
      rw [trim_joinNL_noop L3 hL3ne
        (fun m hm => ⟨(hgood3 m hm).1, (hgood3 m hm).2.2.1, (hgood3 m hm).2.2.2.1⟩)] at hl
      have hjne : joinNL L3 ≠ [] := joinNL_ne_nil L3 hL3ne (fun m hm => (hgood3 m hm).1)
      have hlines : linesOf (joinNL L3) = L3 := by
        unfold linesOf
        rw [if_neg (by simpa using hjne)]
        exact splitNL_joinNL L3 hL3ne (fun m hm => (hgood3 m hm).2.1)
      rw [hlines] at hl
      -- every member of the filtered collapsed lines passes the filter
      obtain ⟨x, hx, rfl⟩ := List.mem_map.mp (List.mem_of_mem_filter (hL3def ▸ hl))
      exact (goodLine_collapseHz x (hgood x hx)).2.2.2.2

/- Length accounting for joins. -/

theorem joinNL_length_formula :
    ∀ L : List (List Char), L ≠ [] → (joinNL L).length + 1 = sumLen L + L.length := by
  intro L
  induction L with
  | nil => intro h; exact absurd rfl h
  | cons l ls ih =>
    intro _
    cases ls with
    | nil => simp [joinNL, sumLen]
    | cons l' ls' =>
      rw [joinNL_cons_cons]
      have := ih (by simp)
      simp only [sumLen, List.map_cons, List.sum_cons, List.length_cons,
        List.length_append] at *
      omega

theorem sumLen_sublist_le (L' L : List (List Char)) (h : List.Sublist L' L) :
    sumLen L' ≤ sumLen L :=
  List.Sublist.sum_le_sum (h.map List.length) (fun a _ => Nat.zero_le a)

theorem joinNL_sublist_length_le (L' L : List (List Char)) (h : List.Sublist L' L) :
    (joinNL L').length ≤ (joinNL L).length := by
  cases hL' : L' with
  | nil => simp [joinNL]
  | cons x xs =>
    have hL'ne : L' ≠ [] := by rw [hL']; simp
    have hLne : L ≠ [] := by
      intro hnil
      subst hnil
      rw [List.sublist_nil.mp h] at hL'
      cases hL'
    rw [← hL']
    have h1 := joinNL_length_formula L' hL'ne
    have h2 := joinNL_length_formula L hLne
    have h3 := sumLen_sublist_le L' L h
    have h4 := h.length_le
    omega

theorem sumLen_map_trim_le (L : List (List Char)) :
    sumLen (L.map trimStr) ≤ sumLen L := by
  induction L with
  | nil => simp [sumLen]
  | cons l ls ih =>
    simp only [sumLen, List.map_cons, List.sum_cons] at *
    have := trimStr_length_le l
    omega

theorem stageDensity_length_le (t : List Char) : (stageDensity t).length ≤ t.length := by
  unfold stageDensity
  have hjoin : (joinNL ((splitNL t).map trimStr)).length ≤ t.length := by
    conv_rhs => rw [← joinNL_splitNL t]
    have h0 : splitNL t ≠ [] := splitNL_ne_nil t
    have h1 : (splitNL t).map trimStr ≠ [] := by
      intro h
      exact h0 (List.map_eq_nil.mp h)
    have hf1 := joinNL_length_formula _ h1
    have hf2 := joinNL_length_formula _ h0
    have hs := sumLen_map_trim_le (splitNL t)
    have hl : ((splitNL t).map trimStr).length = (splitNL t).length := List.length_map _ _
    omega
  have hsub : List.Sublist (((splitNL t).map trimStr).filter densityKeep)
      ((splitNL t).map trimStr) := List.filter_sublist _
  exact le_trans (joinNL_sublist_length_le _ _ hsub) hjoin

theorem stageWhitespace_length_le (t : List Char) :
    (stageWhitespace t).length ≤ t.length := by
  unfold stageWhitespace
  calc (trimStr (collapseHz (collapseNL t))).length
      ≤ (collapseHz (collapseNL t)).length := trimStr_length_le _
    _ ≤ (collapseNL t).length := collapseHz_length_le _
    _ ≤ t.length := collapseNL_length_le t

theorem stageEngagement_length_le (t : List Char) :
    (stageEngagement t).length ≤ t.length := by
  unfold stageEngagement
  have hsub : List.Sublist ((splitNL t).filter engagementKeep) (splitNL t) :=
    List.filter_sublist _
  have := joinNL_sublist_length_le _ _ hsub
  rw [joinNL_splitNL t] at this
  exact this

theorem regexStages_length_le (t : List Char) : (regexStages t).length ≤ t.length := by
  unfold regexStages
  refine le_trans (removeAll_length_le _ _) ?_
  refine le_trans (remLines_length_le _ _) ?_
  refine le_trans (removeAll_length_le _ _) ?_
  refine le_trans (remLines_length_le _ _) ?_
  rw [List.length_map, List.length_map]
  refine le_trans (List.length_filter_le _ _) ?_
  refine le_trans (List.length_filter_le _ _) ?_
  exact le_trans (remLines_length_le _ _) (remLines_length_le _ _)

theorem cleanOCRText_length_le (t : List Char) : (cleanOCRText t).length ≤ t.length := by
  unfold cleanOCRText
  calc (trimStr (stageEngagement (stageWhitespace (stageDensity (regexStages t))))).length
      ≤ (stageEngagement (stageWhitespace (stageDensity (regexStages t)))).length :=
        trimStr_length_le _
    _ ≤ (stageWhitespace (stageDensity (regexStages t))).length :=
        stageEngagement_length_le _
    _ ≤ (stageDensity (regexStages t)).length := stageWhitespace_length_le _
    _ ≤ (regexStages t).length := stageDensity_length_le _
    _ ≤ t.length := regexStages_length_le t

instance exceptDecEq {e a : Type} [DecidableEq e] [DecidableEq a] :
    DecidableEq (Except e a) := fun x y =>
  match x, y with
  | Except.ok u, Except.ok v =>
    match decEq u v with
    | isTrue h => isTrue (by rw [h])
    | isFalse h => isFalse (fun hh => h (by injection hh))
  | Except.error u, Except.error v =>
    match decEq u v with
    | isTrue h => isTrue (by rw [h])
    | isFalse h => isFalse (fun hh => h (by injection hh))
  | Except.ok _, Except.error _ => isFalse (fun hh => by injection hh)
  | Except.error _, Except.ok _ => isFalse (fun hh => by injection hh)

/-- Claim C10: every line of the Text Sanitizer's output is at least 3
characters long and its count of alphanumeric characters is at least
three tenths of its length (the density filter's guarantees survive the
later whitespace collapsing, which never lowers a line's density or
drops its length below 3).  The ratio form word-characters over length
of at least 0.3 is stated integrally as three times the length at most
ten times the count. -/
theorem c10_output_line_density (t : List Char) (l : List Char)
    (hl : l ∈ linesOf (cleanOCRText t)) :
    3 ≤ l.length ∧ 3 * l.length ≤ 10 * countAlnum l := by
  have h := clean_output_lines_dense (regexStages t) l hl
  exact ⟨densityKeep_len l h, densityKeep_ratio l h⟩

theorem c10_output_line_density_witness :
    3 ≤ (("abc").data).length ∧
      3 * (("abc").data).length ≤ 10 * countAlnum (("abc").data) :=
  c10_output_line_density (("abc").data) (("abc").data) (by decide)

/- Claim C2 is refuted: the sanitizer rewrites line content (here the
   horizontal-blank collapse), so an output line need not occur verbatim
   among the input lines. -/

/-- Claim C2 counterexample: for the single-line input of hello, two
blanks, world, the output line hello-blank-world is not a line of the
input, refuting that every output line occurs with identical content in
the input. -/
theorem c2_counterexample :
    ∃ l ∈ linesOf (cleanOCRText (("hello  world").data)),
      l ∉ splitNL (("hello  world").data) := by
  refine ⟨("hello world").data, by decide, by decide⟩

/-- Claim C2 amended: the sanitizer only removes or normalizes
characters, so while an output line need not occur verbatim among the
input lines (quote normalization, glyph stripping, whitespace collapsing
and trimming may alter it), the output never grows: the length of
clean(input) is at most the length of the input. -/
theorem c2_length_monotone (t : List Char) :
    (cleanOCRText t).length ≤ t.length :=
  cleanOCRText_length_le t

/- Claim C1 is refuted: an input line that matches an engagement-metric
   shape only after trimming slips through the anchored passes and
   survives to the output. -/

/-- Claim C1 counterexample: the input blank, 5 others, blank cleans to
the line 5 others, which matches the engagement-metric
digits-others-or-comments pattern of the sanitizer itself, refuting that
no output line matches the engagement-metric patterns. -/
theorem c1_counterexample :
    cleanOCRText ((" 5 others ").data) = ("5 others").data ∧
      ∃ l ∈ linesOf (cleanOCRText ((" 5 others ").data)), reTestFull re7body l = true := by
  refine ⟨by decide, ("5 others").data, by decide, by decide⟩

/-- Claim C1 amended: an input line of the Name, Name, and-n-others,
m-comments shape does not survive to the output: its engagement-metric
tail is stripped, leaving only the leading names (for the example input
the output is exactly Jane Doe, and the full input line is not an output
line).  The stronger universal claim fails, since a line matching the
digits-others shape only after trimming survives. -/
theorem c1_names_line_stripped :
    cleanOCRText (("Jane Doe and 54 others 5 comments").data) = ("Jane Doe").data ∧
      ("Jane Doe and 54 others 5 comments").data ∉
        linesOf (cleanOCRText (("Jane Doe and 54 others 5 comments").data)) := by
  refine ⟨by decide, by decide⟩

/- Bounds on the scorer's sub-signals. -/

theorem avgWordLength_nonneg (t : List Char) : 0 ≤ avgWordLength t := by
  unfold avgWordLength
  apply div_nonneg
  · exact_mod_cast Nat.zero_le _
  · exact_mod_cast Nat.zero_le _

theorem reasonableRatio_nonneg (t : List Char) : 0 ≤ reasonableRatio t := by
  unfold reasonableRatio
  apply div_nonneg
  · exact_mod_cast Nat.zero_le _
  · exact_mod_cast Nat.zero_le _

theorem reasonableRatio_le_one (t : List Char) : reasonableRatio t ≤ 1 := by
  unfold reasonableRatio
  apply div_le_one_of_le
  · exact_mod_cast List.length_filter_le _ _
  · exact_mod_cast Nat.zero_le _

theorem meaningfulRatio_nonneg (t : List Char) : 0 ≤ meaningfulRatio t := by
  unfold meaningfulRatio
  split
  · exact le_refl 0
  · apply div_nonneg
    · exact_mod_cast Nat.zero_le _
    · exact_mod_cast Nat.zero_le _

theorem meaningfulRatio_le_one (t : List Char) : meaningfulRatio t ≤ 1 := by
  unfold meaningfulRatio
  split
  · norm_num
  · apply div_le_one_of_le
    · exact_mod_cast List.length_filter_le _ _
    · exact_mod_cast Nat.zero_le _

theorem scoreOCRQuality_empty : scoreOCRQuality [] = 0 := by
  unfold scoreOCRQuality
  norm_num

theorem scoreOCRQuality_nonneg (t : List Char) : 0 ≤ scoreOCRQuality t := by
  unfold scoreOCRQuality
  split
  · exact le_refl 0
  · split
    · exact le_refl 0
    · have h1 := avgWordLength_nonneg t
      have h2 := reasonableRatio_nonneg t
      have h3 := meaningfulRatio_nonneg t
      have ha : 0 ≤ avgWordLength t / 10 * (3 / 10) := by positivity
      have hb : 0 ≤ reasonableRatio t * (4 / 10) := by positivity
      have hc : 0 ≤ meaningfulRatio t * (3 / 10) := by positivity
      linarith

/-- Claim C3 counterexample: a single word of eleven letters scores
103/100, strictly above 1, refuting that the Quality Scorer always
returns a value in the closed interval from 0 to 1. -/
theorem c3_counterexample :
    scoreOCRQuality (List.replicate 11 'a') = 103 / 100 ∧
      (1 : ℚ) < scoreOCRQuality (List.replicate 11 'a') := by
  have hs : scoreOCRQuality (List.replicate 11 'a') = 103 / 100 := by
    unfold scoreOCRQuality
    rw [if_neg (by decide), if_neg (by decide)]
    unfold avgWordLength reasonableRatio meaningfulRatio
    rw [if_neg (by decide)]
    rw [show sumLen (wordsOf (List.replicate 11 'a')) = 11 from by decide]
    rw [show (wordsOf (List.replicate 11 'a')).length = 1 from by decide]
    rw [show ((wordsOf (List.replicate 11 'a')).filter
      (fun w => decide (3 ≤ w.length) && decide (w.length ≤ 20))).length = 1 from by decide]
    rw [show ((scoreLines (List.replicate 11 'a')).filter meaningfulLine).length = 1 from
      by decide]
    rw [show (scoreLines (List.replicate 11 'a')).length = 1 from by decide]
    norm_num
  exact ⟨hs, by rw [hs]; norm_num⟩

/-- Claim C3 amended: the Quality Scorer is non-negative and returns
exactly 0 on the empty input, and its value is at most 1 whenever the
average word length is at most 10; without that bound the average-length
term grows without limit, so the score is not confined to the interval
from 0 to 1 in general. -/
theorem c3_score_bounds (t : List Char) :
    0 ≤ scoreOCRQuality t ∧ scoreOCRQuality [] = 0 ∧
      (avgWordLength t ≤ 10 → scoreOCRQuality t ≤ 1) := by
  refine ⟨scoreOCRQuality_nonneg t, scoreOCRQuality_empty, ?_⟩
  intro havg
  unfold scoreOCRQuality
  split
  · norm_num
  · split
    · norm_num
    · have h0 := avgWordLength_nonneg t
      have h2 := reasonableRatio_nonneg t
      have h2' := reasonableRatio_le_one t
      have h3 := meaningfulRatio_nonneg t
      have h3' := meaningfulRatio_le_one t
      nlinarith [havg, h0, h2, h2', h3, h3']

theorem c3_score_bounds_witness :
    0 ≤ scoreOCRQuality (("hi there").data) ∧ scoreOCRQuality [] = 0 ∧
      scoreOCRQuality (("hi there").data) ≤ 1 := by
  obtain ⟨h1, h2, h3⟩ := c3_score_bounds (("hi there").data)
  refine ⟨h1, h2, h3 ?_⟩
  unfold avgWordLength
  rw [show sumLen (wordsOf (("hi there").data)) = 7 from by decide]
  rw [show (wordsOf (("hi there").data)).length = 2 from by decide]
  norm_num

/- The head of the stable descending sort is the first candidate
   attaining the maximal quality. -/

theorem sortByQ_head?_eq_firstMax : ∀ l : List Candidate,
    (sortByQ l).head? = firstMax l := by
  intro l
  induction l with
  | nil => rfl
  | cons x xs ih =>
    show (insertByQ x (sortByQ xs)).head? = firstMax (x :: xs)
    cases h : sortByQ xs with
    | nil =>
      rw [h] at ih
      show (insertByQ x []).head? = firstMax (x :: xs)
      simp only [insertByQ, firstMax, ← ih]
      rfl
    | cons y ys =>
      rw [h] at ih
      have hfm : firstMax xs = some y := by rw [← ih]; rfl
      show (insertByQ x (y :: ys)).head? = firstMax (x :: xs)
      simp only [insertByQ, firstMax, hfm]
      by_cases hq : y.quality ≤ x.quality
      · rw [if_pos hq]
        have hnx : ¬ x.quality < y.quality := not_lt.mpr hq
        rw [if_neg hnx]
        rfl
      · rw [if_neg hq]
        have hx : x.quality < y.quality := lt_of_not_le hq
        rw [if_pos hx]
        rfl

theorem firstMax_spec : ∀ l : List Candidate, l ≠ [] →
    ∃ c l₁ l₂, firstMax l = some c ∧ l = l₁ ++ c :: l₂ ∧
      (∀ d ∈ l, d.quality ≤ c.quality) ∧ (∀ d ∈ l₁, d.quality < c.quality) := by
  intro l
  induction l with
  | nil => intro h; exact absurd rfl h
  | cons x xs ih =>
    intro _
    cases hxs : xs with
    | nil =>
      refine ⟨x, [], [], ?_, by simp, ?_, by simp⟩
      · rfl
      · intro d hd
        have : d = x := by simpa using hd
        subst this
        exact le_refl _
    | cons y ys =>
      obtain ⟨c', l₁', l₂', h1, h2, h3, h4⟩ := ih (by rw [hxs]; simp)
      rw [← hxs] at *
      by_cases hq : x.quality < c'.quality
      · refine ⟨c', x :: l₁', l₂', ?_, ?_, ?_, ?_⟩
        · show firstMax (x :: xs) = some c'
          simp only [firstMax, h1]
          rw [if_pos hq]
        · rw [List.cons_append, h2]
        · intro d hd
          rcases List.mem_cons.mp hd with h | h
          · subst h; exact le_of_lt hq
          · exact h3 d h
        · intro d hd
          rcases List.mem_cons.mp hd with h | h
          · subst h; exact hq
          · exact h4 d h
      · refine ⟨x, [], xs, ?_, by simp, ?_, by simp⟩
        · show firstMax (x :: xs) = some x
          simp only [firstMax, h1]
          rw [if_neg hq]
        · intro d hd
          rcases List.mem_cons.mp hd with h | h
          · subst h; exact le_refl _
          · exact le_trans (h3 d h) (not_lt.mp hq)

/-- Claim C4: the Selector (a stable descending sort on quality followed
by taking the head) picks the candidate with the highest quality score,
and on ties the candidate earliest in the list (the one produced by the
earliest-declared profile, since the runner pushes candidates in
declaration order) wins: the head of the sort is the first candidate
attaining the maximal score.  Determinism of repeated invocation is
immediate since the selector is a pure function of the candidate list
and this characterization determines its value uniquely. -/
theorem c4_selector_stable_max (l : List Candidate) (h : l ≠ []) :
    ∃ c l₁ l₂, (sortByQ l).head? = some c ∧ l = l₁ ++ c :: l₂ ∧
      (∀ d ∈ l, d.quality ≤ c.quality) ∧ (∀ d ∈ l₁, d.quality < c.quality) := by
  rw [sortByQ_head?_eq_firstMax]
  exact firstMax_spec l h

theorem c4_selector_stable_max_witness :
    ∃ c l₁ l₂,
      (sortByQ [({ text := ("a").data, quality := 1, config := "A" } : Candidate),
                ({ text := ("b").data, quality := 1, config := "B" } : Candidate)]).head? =
          some c ∧
      [({ text := ("a").data, quality := 1, config := "A" } : Candidate),
       ({ text := ("b").data, quality := 1, config := "B" } : Candidate)] = l₁ ++ c :: l₂ ∧
      (∀ d ∈ [({ text := ("a").data, quality := 1, config := "A" } : Candidate),
              ({ text := ("b").data, quality := 1, config := "B" } : Candidate)],
        d.quality ≤ c.quality) ∧
      (∀ d ∈ l₁, d.quality < c.quality) :=
  c4_selector_stable_max
    [({ text := ("a").data, quality := 1, config := "A" } : Candidate),
     ({ text := ("b").data, quality := 1, config := "B" } : Candidate)] (by simp)

/- Helper facts for the selector. -/

theorem cleanOCRText_trimmed (t : List Char) :
    trimStr (cleanOCRText t) = cleanOCRText t := by
  unfold cleanOCRText
  exact trimStr_idem _

theorem insertByQ_ne_nil (x : Candidate) (l : List Candidate) : insertByQ x l ≠ [] := by
  cases l with
  | nil => simp [insertByQ]
  | cons y ys =>
    simp only [insertByQ]
    by_cases h : y.quality ≤ x.quality
    · rw [if_pos h]; simp
    · rw [if_neg h]; simp

theorem sortByQ_eq_nil_iff (l : List Candidate) : sortByQ l = [] ↔ l = [] := by
  cases l with
  | nil => simp [sortByQ]
  | cons x xs =>
    constructor
    · intro h
      exact absurd h (insertByQ_ne_nil x (sortByQ xs))
    · intro h
      cases h

theorem mem_of_mem_insertByQ (y x : Candidate) :
    ∀ l, y ∈ insertByQ x l → y = x ∨ y ∈ l := by
  intro l
  induction l with
  | nil =>
    intro h
    simp only [insertByQ] at h
    left
    simpa using h
  | cons z zs ih =>
    intro h
    simp only [insertByQ] at h
    by_cases hq : z.quality ≤ x.quality
    · rw [if_pos hq] at h
      rcases List.mem_cons.mp h with h' | h'
      · exact Or.inl h'
      · exact Or.inr h'
    · rw [if_neg hq] at h
      rcases List.mem_cons.mp h with h' | h'
      · exact Or.inr (by simp [h'])
      · rcases ih h' with h'' | h''
        · exact Or.inl h''
        · exact Or.inr (List.mem_cons_of_mem z h'')

theorem mem_of_mem_sortByQ (y : Candidate) :
    ∀ l, y ∈ sortByQ l → y ∈ l := by
  intro l
  induction l with
  | nil => intro h; cases h
  | cons x xs ih =>
    intro h
    rcases mem_of_mem_insertByQ y x (sortByQ xs) h with h' | h'
    · simp [h']
    · exact List.mem_cons_of_mem x (ih h')

theorem mem_of_head?_some (b : Candidate) (l : List Candidate) (h : l.head? = some b) :
    b ∈ l := by
  cases l with
  | nil => cases h
  | cons x xs =>
    have : x = b := by simpa using h
    simp [this]

theorem mkCandidate_text (cfg : OCRConfig) (raw : List Char) :
    (mkCandidate cfg raw).text = cleanOCRText raw := by
  simp only [mkCandidate]

/- Every candidate text produced by the runner is a sanitizer output,
   hence already trimmed. -/
theorem runProfiles_text_trimmed (r : OCRConfig → Option (List Char)) :
    ∀ (cfgs : List OCRConfig) (c : Candidate), c ∈ runProfiles r cfgs →
      trimStr c.text = c.text := by
  intro cfgs
  induction cfgs with
  | nil => intro c hc; cases hc
  | cons cfg rest ih =>
    intro c hc
    unfold runProfiles at hc
    rw [List.filterMap_cons] at hc
    cases hr : r cfg with
    | none =>
      rw [hr] at hc
      exact ih c hc
    | some raw =>
      rw [hr] at hc
      rcases List.mem_cons.mp hc with h | h
      · subst h
        rw [mkCandidate_text]
        exact cleanOCRText_trimmed raw
      · exact ih c h

/- Evaluation equations for the selector and the image extractor. -/

theorem selectBestText_none (results : List Candidate)
    (h : (sortByQ results).head? = none) :
    selectBestText results = Except.error ("No text could be extracted from the image") := by
  unfold selectBestText
  rw [h]

theorem selectBestText_some_empty (results : List Candidate) (best : Candidate)
    (h : (sortByQ results).head? = some best) (h0 : best.text.length = 0) :
    selectBestText results = Except.error ("No text could be extracted from the image") := by
  unfold selectBestText
  rw [h]
  simp [h0]

theorem selectBestText_some_ok (results : List Candidate) (best : Candidate)
    (h : (sortByQ results).head? = some best) (h0 : ¬ best.text.length = 0) :
    selectBestText results = Except.ok best.text := by
  unfold selectBestText
  rw [h]
  simp [h0]

theorem extractTextFromImage_error (r : OCRConfig → Option (List Char)) (e : String)
    (h : selectBestText (runProfiles r configurations) = Except.error e) :
    extractTextFromImage r =
      Except.error ("Failed to extract text from image: " ++ e) := by
  unfold extractTextFromImage
  rw [h]

theorem extractTextFromImage_ok (r : OCRConfig → Option (List Char)) (t : List Char)
    (h : selectBestText (runProfiles r configurations) = Except.ok t) :
    extractTextFromImage r = Except.ok t := by
  unfold extractTextFromImage
  rw [h]

/-- Claim C5: extraction from an image fails exactly when the candidate
set is empty or the top-ranked candidate's cleaned text is empty after
trimming; dually, whenever extraction returns successfully, the returned
text is non-empty after trimming.  Candidate texts come from
cleanOCRText, whose output is already trimmed, so empty after trimming
coincides with the source's length-zero check. -/
theorem c5_extraction_failure_iff (recognize : OCRConfig → Option (List Char)) :
    ((∃ e, extractTextFromImage recognize = Except.error e) ↔
      (runProfiles recognize configurations = [] ∨
        ∃ best, (sortByQ (runProfiles recognize configurations)).head? = some best ∧
          trimStr best.text = [])) ∧
    (∀ t, extractTextFromImage recognize = Except.ok t → trimStr t ≠ []) := by
  have htext : ∀ c ∈ runProfiles recognize configurations, trimStr c.text = c.text :=
    fun c hc => runProfiles_text_trimmed recognize configurations c hc
  constructor
  · constructor
    · rintro ⟨e, he⟩
      cases hh : (sortByQ (runProfiles recognize configurations)).head? with
      | none =>
        left
        rw [← sortByQ_eq_nil_iff]
        cases hc : sortByQ (runProfiles recognize configurations) with
        | nil => rfl
        | cons z zs => rw [hc] at hh; cases hh
      | some best =>
        by_cases hlen : best.text.length = 0
        · right
          refine ⟨best, rfl, ?_⟩
          have hbt : best.text = [] := List.length_eq_zero.mp hlen
          rw [hbt]
          rfl
        · exfalso
          have hok := extractTextFromImage_ok recognize best.text
            (selectBestText_some_ok _ best hh hlen)
          rw [hok] at he
          cases he
    · rintro (hnil | ⟨best, hb, htrim⟩)
      · refine ⟨_, extractTextFromImage_error recognize _ (selectBestText_none _ ?_)⟩
        rw [hnil]
        rfl
      · have hmem : best ∈ runProfiles recognize configurations :=
          mem_of_mem_sortByQ best _ (mem_of_head?_some best _ hb)
        have hself : trimStr best.text = best.text := htext best hmem
        have hempty : best.text = [] := by rw [← hself]; exact htrim
        exact ⟨_, extractTextFromImage_error recognize _
          (selectBestText_some_empty _ best hb (by rw [hempty]; rfl))⟩
  · intro t ht
    cases hh : (sortByQ (runProfiles recognize configurations)).head? with
    | none =>
      have := extractTextFromImage_error recognize _ (selectBestText_none _ hh)
      rw [this] at ht
      cases ht
    | some best =>
      by_cases hlen : best.text.length = 0
      · have := extractTextFromImage_error recognize _
          (selectBestText_some_empty _ best hh hlen)
        rw [this] at ht
        cases ht
      · have hok := extractTextFromImage_ok recognize best.text
          (selectBestText_some_ok _ best hh hlen)
        rw [hok] at ht
        obtain rfl : best.text = t := Except.ok.inj ht
        have hmem : best ∈ runProfiles recognize configurations :=
          mem_of_mem_sortByQ best _ (mem_of_head?_some best _ hh)
        rw [htext best hmem]
        intro hnil
        exact hlen (by rw [hnil]; rfl)

theorem c5_extraction_failure_iff_witness :
    ∃ e, extractTextFromImage (fun _ => none) = Except.error e :=
  (c5_extraction_failure_iff (fun _ => none)).1.mpr (Or.inl rfl)

/-- Claim C6: the Recognition Strategy Runner over the fixed list of 4
profiles yields at most 4 candidates (one per profile) and may yield
none; a recognition failure in one profile contributes no candidate and
does not prevent the remaining profiles from being attempted: the runner
over a profile list decomposes around a failing profile into the runs of
the profiles before and after it. -/
theorem c6_runner_fault_isolation (r : OCRConfig → Option (List Char)) :
    (runProfiles r configurations).length ≤ 4 ∧
      (∀ (cfgs1 cfgs2 : List OCRConfig) (cfg : OCRConfig), r cfg = none →
        runProfiles r (cfgs1 ++ cfg :: cfgs2) =
          runProfiles r cfgs1 ++ runProfiles r cfgs2) ∧
      runProfiles (fun _ => none) configurations = [] := by
  refine ⟨?_, ?_, rfl⟩
  · have h := List.length_filterMap_le
      (fun cfg => (r cfg).map (mkCandidate cfg)) configurations
    exact h
  · intro cfgs1 cfgs2 cfg hnone
    unfold runProfiles
    rw [List.filterMap_append, List.filterMap_cons]
    rw [hnone]
    rfl

theorem c6_runner_fault_isolation_witness :
    runProfiles (fun _ => none)
        ([] ++ ({ name := "PSM 6 - Single Block", psm := "6", oem := "1" } : OCRConfig) :: []) =
      runProfiles (fun _ => none) [] ++ runProfiles (fun _ => none) [] :=
  (c6_runner_fault_isolation (fun _ => none)).2.1 [] [] _ rfl

/-- Claim C9: the Preprocessor never raises to its caller: it is a total
function whose result is always either the preprocessed output path or
the original input path, and on any internal failure (missing transform
engine, metadata read failure, pipeline write failure) it returns the
path of the original, unmodified image so recognition can still be
attempted. -/
theorem c9_preprocess_degrades (sharp : Option SharpOracle) (inputPath outputPath : String) :
    (preprocessImage sharp inputPath outputPath = inputPath ∨
      preprocessImage sharp inputPath outputPath = outputPath) ∧
    (sharp = none → preprocessImage sharp inputPath outputPath = inputPath) ∧
    (∀ o, sharp = some o → (∃ e, o.metadata = Except.error e) →
      preprocessImage sharp inputPath outputPath = inputPath) ∧
    (∀ o, sharp = some o → (∃ e, o.toFile = Except.error e) →
      preprocessImage sharp inputPath outputPath = inputPath) ∧
    (∀ o m, sharp = some o → o.metadata = Except.ok m → o.toFile = Except.ok () →
      preprocessImage sharp inputPath outputPath = outputPath) := by
  refine ⟨?_, ?_, ?_, ?_, ?_⟩
  · cases sharp with
    | none => exact Or.inl rfl
    | some o =>
      cases hm : o.metadata with
      | error e => exact Or.inl (by simp only [preprocessImage, hm])
      | ok m =>
        cases ht : o.toFile with
        | error e => exact Or.inl (by simp only [preprocessImage, hm, ht])
        | ok u => exact Or.inr (by simp only [preprocessImage, hm, ht])
  · intro h
    subst h
    rfl
  · rintro o rfl ⟨e, he⟩
    simp only [preprocessImage, he]
  · rintro o rfl ⟨e, he⟩
    cases hm : o.metadata with
    | error e' => simp only [preprocessImage, hm]
    | ok m => simp only [preprocessImage, hm, he]
  · rintro o m rfl hm ht
    simp only [preprocessImage, hm, ht]

theorem c9_preprocess_degrades_witness :
    preprocessImage none ("in.png") ("out.png") = ("in.png") :=
  (c9_preprocess_degrades none ("in.png") ("out.png")).2.1 rfl

/- Substring containment facts used to classify the PDF failure
   messages. -/

theorem containsSub_iff (p s : List Char) :
    containsSub p s = true ↔ ∃ t, t <:+ s ∧ p <+: t := by
  unfold containsSub
  rw [List.any_eq_true]
  constructor
  · rintro ⟨t, ht, hp⟩
    exact ⟨t, (List.mem_tails t s).mp ht, List.isPrefixOf_iff_prefix.mp hp⟩
  · rintro ⟨t, ht, hp⟩
    exact ⟨t, (List.mem_tails t s).mpr ht, List.isPrefixOf_iff_prefix.mpr hp⟩

theorem containsSub_append_left (p x y : List Char) (h : containsSub p y = true) :
    containsSub p (x ++ y) = true := by
  rw [containsSub_iff] at h ⊢
  obtain ⟨t, ht, hp⟩ := h
  exact ⟨t, ht.trans (List.suffix_append x y), hp⟩

theorem containsSub_append_right (p y z : List Char) (h : containsSub p y = true) :
    containsSub p (y ++ z) = true := by
  rw [containsSub_iff] at h ⊢
  obtain ⟨t, ht, hp⟩ := h
  obtain ⟨a, ha⟩ := ht
  refine ⟨t ++ z, ⟨a, ?_⟩, hp.trans (List.prefix_append t z)⟩
  rw [← List.append_assoc, ha]

/- A message embedding a cross-reference-failure message is itself
   classified as a cross-reference failure. -/
theorem xrefErr_corruptedMsg (e : String) (h : xrefErr e = true) :
    xrefErr (corruptedMsg e) = true := by
  unfold xrefErr at h ⊢
  unfold corruptedMsg
  rw [String.data_append, String.data_append]
  rcases Bool.or_eq_true_iff.mp h with h' | h'
  · apply Bool.or_eq_true_iff.mpr
    left
    exact containsSub_append_right _ _ _ (containsSub_append_left _ _ _ h')
  · apply Bool.or_eq_true_iff.mpr
    right
    exact containsSub_append_right _ _ _ (containsSub_append_left _ _ _ h')

/- The three user-facing remediation suggestions of the PDF path. -/

def structuralSuggestion : String :=
  "Try: 1) Re-saving the PDF, 2) Converting to an image and uploading as PNG/JPEG, or 3) Using a different PDF file."

def passwordSuggestion : String :=
  "Please remove the password and try again."

def noTextSuggestion : String :=
  "Please try uploading as an image file instead."

/- Evaluation equations for the PDF extractor. -/

theorem pdfParsePhase_ok (o : PdfParseOracle) (d : List Char)
    (h : o.firstAttempt = Except.ok d) : pdfParsePhase o = (Except.ok d, 1) := by
  unfold pdfParsePhase
  rw [h]

theorem pdfParsePhase_err_noxref (o : PdfParseOracle) (e : String)
    (h1 : o.firstAttempt = Except.error e) (h2 : xrefErr e = false) :
    pdfParsePhase o = (Except.error e, 1) := by
  unfold pdfParsePhase
  rw [h1]
  simp [h2]

theorem pdfParsePhase_err_xref_ok (o : PdfParseOracle) (e : String) (d : List Char)
    (h1 : o.firstAttempt = Except.error e) (h2 : xrefErr e = true)
    (h3 : o.retryAttempt = Except.ok d) :
    pdfParsePhase o = (Except.ok d, 2) := by
  unfold pdfParsePhase
  rw [h1]
  simp [h2, h3]

theorem pdfParsePhase_err_xref_err (o : PdfParseOracle) (e e2 : String)
    (h1 : o.firstAttempt = Except.error e) (h2 : xrefErr e = true)
    (h3 : o.retryAttempt = Except.error e2) :
    pdfParsePhase o = (Except.error (corruptedMsg e), 2) := by
  unfold pdfParsePhase
  rw [h1]
  simp [h2, h3]

theorem extractTextFromPDF_parse_err (o : PdfParseOracle) (e : String) (n : Nat)
    (h : pdfParsePhase o = (Except.error e, n)) :
    extractTextFromPDF o = (Except.error (classifyPdfError e), n) := by
  unfold extractTextFromPDF
  rw [h]

theorem extractTextFromPDF_ok_empty (o : PdfParseOracle) (d : List Char) (n : Nat)
    (h : pdfParsePhase o = (Except.ok d, n)) (hd : d.isEmpty = true) :
    extractTextFromPDF o = (Except.error (classifyPdfError noTextExtractedMsg), n) := by
  unfold extractTextFromPDF
  rw [h]
  simp [hd]

theorem extractTextFromPDF_ok_norm_empty (o : PdfParseOracle) (d : List Char) (n : Nat)
    (h : pdfParsePhase o = (Except.ok d, n)) (hd : d.isEmpty = false)
    (hn : (normalizePDF d).isEmpty = true) :
    extractTextFromPDF o = (Except.error (classifyPdfError imageOnlyMsg), n) := by
  unfold extractTextFromPDF
  rw [h]
  simp [hd, hn]

theorem extractTextFromPDF_ok (o : PdfParseOracle) (d : List Char) (n : Nat)
    (h : pdfParsePhase o = (Except.ok d, n)) (hd : d.isEmpty = false)
    (hn : (normalizePDF d).isEmpty = false) :
    extractTextFromPDF o = (Except.ok (normalizePDF d), n) := by
  unfold extractTextFromPDF
  rw [h]
  simp [hd, hn]

theorem extractTextFromPDF_snd (o : PdfParseOracle) :
    (extractTextFromPDF o).2 = (pdfParsePhase o).2 := by
  rcases hp : pdfParsePhase o with ⟨r, n⟩
  cases r with
  | error e => rw [extractTextFromPDF_parse_err o e n hp]
  | ok d =>
    cases hd : d.isEmpty with
    | true => rw [extractTextFromPDF_ok_empty o d n hp hd]
    | false =>
      cases hn : (normalizePDF d).isEmpty with
      | true => rw [extractTextFromPDF_ok_norm_empty o d n hp hd hn]
      | false => rw [extractTextFromPDF_ok o d n hp hd hn]

theorem pdfParsePhase_snd (o : PdfParseOracle) :
    (pdfParsePhase o).2 ≤ 2 ∧
      ((pdfParsePhase o).2 = 2 ↔ ∃ e, o.firstAttempt = Except.error e ∧ xrefErr e = true) := by
  cases hf : o.firstAttempt with
  | ok d =>
    rw [pdfParsePhase_ok o d hf]
    constructor
    · omega
    · constructor
      · intro h
        cases h
      · rintro ⟨e, he, _⟩
        cases he
  | error e =>
    cases hx : xrefErr e with
    | false =>
      rw [pdfParsePhase_err_noxref o e hf hx]
      constructor
      · omega
      · constructor
        · intro h
          cases h
        · rintro ⟨e', he', hx'⟩
          obtain rfl : e = e' := Except.error.inj he'
          rw [hx] at hx'
          cases hx'
    | true =>
      cases hr : o.retryAttempt with
      | ok d =>
        rw [pdfParsePhase_err_xref_ok o e d hf hx hr]
        exact ⟨le_refl 2, ⟨fun _ => ⟨e, rfl, hx⟩, fun _ => rfl⟩⟩
      | error e2 =>
        rw [pdfParsePhase_err_xref_err o e e2 hf hx hr]
        exact ⟨le_refl 2, ⟨fun _ => ⟨e, rfl, hx⟩, fun _ => rfl⟩⟩

/-- Claim C7: the Structured-Document Extractor re-attempts the parse at
most once (at most two parse calls), and the retry happens exactly when
the first parse fails with a cross-reference error; on any other parse
error it fails after the single call; the structural and password
failures produce their classified messages, and the three remediation
suggestions (structural, password, no-extractable-text) are pairwise
distinct, non-empty, and contained in their failure messages. -/
theorem c7_pdf_retry_policy (o : PdfParseOracle) :
    (extractTextFromPDF o).2 ≤ 2 ∧
    ((extractTextFromPDF o).2 = 2 ↔
      ∃ e, o.firstAttempt = Except.error e ∧ xrefErr e = true) ∧
    (∀ e, o.firstAttempt = Except.error e → xrefErr e = false →
      extractTextFromPDF o = (Except.error (classifyPdfError e), 1)) ∧
    (∀ e e2, o.firstAttempt = Except.error e → xrefErr e = true →
      o.retryAttempt = Except.error e2 →
      extractTextFromPDF o = (Except.error (structuralMsg (corruptedMsg e)), 2) ∧
        containsSub (structuralSuggestion.data)
          ((structuralMsg (corruptedMsg e)).data) = true) ∧
    (∀ e, o.firstAttempt = Except.error e → xrefErr e = false →
      (containsSub (("password").data) (e.data) = true ∨
        containsSub (("encrypted").data) (e.data) = true) →
      extractTextFromPDF o = (Except.error passwordMsg, 1)) ∧
    (containsSub (passwordSuggestion.data) (passwordMsg.data) = true ∧
      containsSub (noTextSuggestion.data) ((genericPdfMsg imageOnlyMsg).data) = true ∧
      structuralSuggestion ≠ passwordSuggestion ∧
      structuralSuggestion ≠ noTextSuggestion ∧
      passwordSuggestion ≠ noTextSuggestion ∧
      structuralSuggestion ≠ "" ∧ passwordSuggestion ≠ "" ∧ noTextSuggestion ≠ "") := by
  refine ⟨?_, ?_, ?_, ?_, ?_, ?_⟩
  · rw [extractTextFromPDF_snd]
    exact (pdfParsePhase_snd o).1
  · rw [extractTextFromPDF_snd]
    exact (pdfParsePhase_snd o).2
  · intro e h1 h2
    exact extractTextFromPDF_parse_err o e 1 (pdfParsePhase_err_noxref o e h1 h2)
  · intro e e2 h1 h2 h3
    constructor
    · have hph := pdfParsePhase_err_xref_err o e e2 h1 h2 h3
      have := extractTextFromPDF_parse_err o (corruptedMsg e) 2 hph
      rw [this]
      have hclass : classifyPdfError (corruptedMsg e) = structuralMsg (corruptedMsg e) := by
        unfold classifyPdfError
        rw [if_pos (xrefErr_corruptedMsg e h2)]
      rw [hclass]
    · unfold structuralMsg
      rw [String.data_append, String.data_append]
      exact containsSub_append_left _ _ _ (by decide)
  · intro e h1 h2 h3
    have hph := pdfParsePhase_err_noxref o e h1 h2
    have := extractTextFromPDF_parse_err o e 1 hph
    rw [this]
    have hclass : classifyPdfError e = passwordMsg := by
      unfold classifyPdfError
      rw [if_neg (by simp [h2]), if_pos (Bool.or_eq_true_iff.mpr h3)]
    rw [hclass]
  · refine ⟨by decide, by decide, by decide, by decide, by decide, by decide, by decide,
      by decide⟩

theorem c7_pdf_retry_policy_witness :
    extractTextFromPDF
        { firstAttempt := Except.error ("bad xref table"),
          retryAttempt := Except.error ("again") } =
      (Except.error (structuralMsg (corruptedMsg ("bad xref table"))), 2) ∧
    containsSub (structuralSuggestion.data)
      ((structuralMsg (corruptedMsg ("bad xref table"))).data) = true :=
  (c7_pdf_retry_policy _).2.2.2.1 ("bad xref table") ("again") rfl (by decide) rfl

/-- Claim C8: the PDF path's whitespace normalization (replace every run
of three or more newlines with exactly two, then trim) is idempotent:
applying it to an already-normalized text returns it unchanged; and when
a successfully parsed document's normalized text is empty, the extractor
fails with the no-extractable-text message (the image-only remediation
hint wrapped by the generic failure prefix). -/
theorem c8_normalize_idempotent (t : List Char) (o : PdfParseOracle) :
    normalizePDF (normalizePDF t) = normalizePDF t ∧
    (∀ d, o.firstAttempt = Except.ok d → d ≠ [] → normalizePDF d = [] →
      extractTextFromPDF o = (Except.error (genericPdfMsg imageOnlyMsg), 1)) := by
  constructor
  · show trimStr (collapseNL (trimStr (collapseNL t))) = trimStr (collapseNL t)
    have h1 : hasTriple (collapseNL t) = false := hasTriple_collapseNL t
    have h2 : hasTriple (trimStr (collapseNL t)) = false := hasTriple_trimStr _ h1
    rw [collapseNL_eq_self _ h2, trimStr_idem]
  · intro d hd hne hnorm
    have hph := pdfParsePhase_ok o d hd
    have hdne : d.isEmpty = false := by
      cases d with
      | nil => exact absurd rfl hne
      | cons c cs => rfl
    have hnE : (normalizePDF d).isEmpty = true := by rw [hnorm]; rfl
    have hres := extractTextFromPDF_ok_norm_empty o d 1 hph hdne hnE
    rw [hres]
    have hclass : classifyPdfError imageOnlyMsg = genericPdfMsg imageOnlyMsg := by decide
    rw [hclass]

theorem c8_normalize_idempotent_witness :
    extractTextFromPDF
        { firstAttempt := Except.ok (("\n\n").data),
          retryAttempt := Except.error ("r") } =
      (Except.error (genericPdfMsg imageOnlyMsg), 1) :=
  (c8_normalize_idempotent (("a").data)
      { firstAttempt := Except.ok (("\n\n").data), retryAttempt := Except.error ("r") }).2
    (("\n\n").data) rfl (by decide) (by decide)
